import Mathlib

/-!
Shallow embedding of the `PinkyPromise` Promises/A+ implementation
(`src/unnamed/part_000`, final module) and of the earlier draft module
(`src/lib/pinky-promise.ts`).

JavaScript values fed to the resolution procedure are modelled by the
inductive `JSVal`.  Foreign thenables carry a finite script: the body of
their `then` method, a sequence of calls to the resolving callback, the
rejecting callback, or a terminating `throw`.  The single-threaded
JavaScript runtime with its microtask queue is modelled by `Machine`:
a heap of promises, a FIFO task queue (`queueMicrotask`), plus ghost
instrumentation (`nextLid` listener-id counter and an invocation `log`)
that records when each registered reaction is invoked — used to state the
temporal claims; the ghost fields never influence control flow.
-/

namespace PinkyProof

/-- Kind of one step of a foreign thenable's `then` body: call the
resolving callback, call the rejecting callback, or throw. -/
inductive SKind where
  | sres
  | srej
  | sthrow

/-- JavaScript values as seen by the resolution procedure.
`promiseRef id` is an own-library `PinkyPromise` instance (heap id);
`thenable isFun script` is a foreign object (or, when `isFun`, a function)
with a callable `then` member whose body runs `script`;
`thenThrowsOnRead e` is an object whose `then` accessor throws `e`;
`thenNotCallable` is an object with a non-callable `then` member;
`tyErr` is a TypeError instance (an object without a `then` member). -/
inductive JSVal where
  | prim (n : Nat)
  | nullv
  | undefv
  | promiseRef (id : Nat)
  | plainObj
  | thenThrowsOnRead (e : JSVal)
  | thenNotCallable
  | thenable (isFun : Bool) (script : List (SKind × JSVal))
  | plainFun
  | tyErr (msg : String)

/-- The `PromiseState<T>` tagged union of the final module. -/
inductive PState where
  | pending
  | fulfilled (value : JSVal)
  | rejected (reason : JSVal)

/-- Defunctionalized user callbacks passed to `then`: enough shapes to
cover returning a constant, identity, incrementing a number, and
throwing. -/
inductive UserFn where
  | const (v : JSVal)
  | idFn
  | addOne
  | throwF (e : JSVal)

/-- Evaluate a user callback: returns the result value or the thrown
value. -/
def evalUser : UserFn → JSVal → Except JSVal JSVal
  | .const v, _ => .ok v
  | .idFn, v => .ok v
  | .addOne, .prim n => .ok (.prim (n + 1))
  | .addOne, _ => .ok .undefv
  | .throwF e, _ => .error e

/-- Callbacks that can be handed to `then` as `onfulfilled`/`onrejected`:
either user code, or the two internal arrow functions of `#unpack`'s
`instanceof` branch (`val => #unpack(p, val)` and
`reason => #transition(p, rejected reason)`), which return `undefined`. -/
inductive Cb where
  | user (f : UserFn)
  | unpackInto (pid : Nat)
  | rejectInto (pid : Nat)

/-- The closure pushed onto a listener queue by `then`:
`runCb out cb` is `(x) => #run(x, output, cb)` (callable callback case);
`passResolve out` is the output promise's `#resolve` (non-callable
`onfulfilled`); `passReject out` is the output promise's `#reject`
(non-callable `onrejected`). -/
inductive LAct where
  | runCb (out : Nat) (cb : Cb)
  | passResolve (out : Nat)
  | passReject (out : Nat)

/-- A queued listener, tagged with a ghost id assigned at push time. -/
structure Listener where
  lid : Nat
  act : LAct

/-- A microtask scheduled by `#notify`: run listener `act` with the
payload read at run time from promise `src`'s state (`.value` when
`onFulfilled`, `.reason` otherwise — exactly the closure
`() => listener(this.#state.value)`). -/
structure Task where
  lid : Nat
  act : LAct
  src : Nat
  onFulfilled : Bool

/-- One `PinkyPromise` instance: state plus the two listener queues. -/
structure Promise where
  state : PState
  fulfilledListeners : List Listener
  rejectedListeners : List Listener

/-- The runtime: promise heap (ids are list indices), FIFO microtask
queue, ghost listener-id counter and ghost invocation log. -/
structure Machine where
  promises : List Promise
  tasks : List Task
  nextLid : Nat
  log : List Nat

/-- The `status === "pending"` comparison on a state tag. -/
def PState.isPending : PState → Bool
  | .pending => true
  | _ => false

/-- `Object.is(value, pinkyPromise)`: reference identity holds exactly
when the candidate is the own-library instance with the same heap id. -/
def isSelf (pid : Nat) : JSVal → Bool
  | .promiseRef q => q == pid
  | _ => false

def getP (m : Machine) (pid : Nat) : Option Promise :=
  m.promises[pid]?

def setP (m : Machine) (pid : Nat) (p : Promise) : Machine :=
  { m with promises := m.promises.set pid p }

/-- Current status of promise `pid` (fresh ids read as pending). -/
def getState (m : Machine) (pid : Nat) : PState :=
  match getP m pid with
  | some p => p.state
  | none => .pending

/-- The microtask `queueMicrotask(() => listener(this.#state...))`
scheduled for one queued listener of promise `pid`. -/
def mkTask (pid : Nat) (onF : Bool) (l : Listener) : Task :=
  ⟨l.lid, l.act, pid, onF⟩

/-- `#notify`: if settled, schedule every listener of the matching queue
(in order) as a microtask, then clear both queues. -/
def notify (m : Machine) (pid : Nat) : Machine :=
  match getP m pid with
  | none => m
  | some p =>
    match p.state with
    | .pending => m
    | .fulfilled _ =>
      let newTasks := p.fulfilledListeners.map (mkTask pid true)
      { setP m pid { p with fulfilledListeners := [], rejectedListeners := [] } with
          tasks := m.tasks ++ newTasks }
    | .rejected _ =>
      let newTasks := p.rejectedListeners.map (mkTask pid false)
      { setP m pid { p with fulfilledListeners := [], rejectedListeners := [] } with
          tasks := m.tasks ++ newTasks }

/-- `PinkyPromise.#transition`: if the promise is still pending, replace
its state and notify; otherwise a silent no-op. -/
def transition (m : Machine) (pid : Nat) (st : PState) : Machine :=
  match getP m pid with
  | none => m
  | some p =>
    if p.state.isPending then
      notify (setP m pid { p with state := st }) pid
    else m

/-- Allocate a fresh pending promise, returning its id. -/
def newPromise (m : Machine) : Machine × Nat :=
  ({ m with promises := m.promises ++ [⟨.pending, [], []⟩] }, m.promises.length)

/-- Append a listener to the fulfillment queue of `pid`, assigning the
next ghost id. -/
def pushF (m : Machine) (pid : Nat) (a : LAct) : Machine :=
  match getP m pid with
  | none => m
  | some p =>
    { setP m pid
        { p with fulfilledListeners := p.fulfilledListeners ++ [⟨m.nextLid, a⟩] } with
      nextLid := m.nextLid + 1 }

/-- Append a listener to the rejection queue of `pid`, assigning the
next ghost id. -/
def pushR (m : Machine) (pid : Nat) (a : LAct) : Machine :=
  match getP m pid with
  | none => m
  | some p =>
    { setP m pid
        { p with rejectedListeners := p.rejectedListeners ++ [⟨m.nextLid, a⟩] } with
      nextLid := m.nextLid + 1 }

/-- `PinkyPromise.prototype.then`: allocate the output promise, run the
executor synchronously — it unconditionally pushes one listener on each
queue of the source (`#run` wrappers for callable callbacks, the output's
`#resolve`/`#reject` otherwise) and then calls `#notify` on the source.
Returns the updated machine and the output promise id.
`none` models an omitted or non-callable callback. -/
def thenOp (m : Machine) (srcId : Nat) (onF onR : Option Cb) : Machine × Nat :=
  let alloc := newPromise m
  let outId := alloc.2
  let m1 :=
    match onF with
    | some cb => pushF alloc.1 srcId (.runCb outId cb)
    | none => pushF alloc.1 srcId (.passResolve outId)
  let m2 :=
    match onR with
    | some cb => pushR m1 srcId (.runCb outId cb)
    | none => pushR m1 srcId (.passReject outId)
  (notify m2 srcId, outId)

/-- The fulfillment-queue entry `then` pushes for a given `onfulfilled`
argument: a `#run` wrapper when callable, the output's `#resolve`
otherwise. -/
def actOfF (o : Option Cb) (out : Nat) : LAct :=
  match o with
  | some cb => .runCb out cb
  | none => .passResolve out

/-- The rejection-queue entry `then` pushes for a given `onrejected`
argument: a `#run` wrapper when callable, the output's `#reject`
otherwise. -/
def actOfR (o : Option Cb) (out : Nat) : LAct :=
  match o with
  | some cb => .runCb out cb
  | none => .passReject out

mutual

/-- `PinkyPromise.#unpack`, the promise resolution procedure.  In order:
the early return when already settled; the `Object.is(value, this)`
cycle check; the `instanceof PinkyPromise` branch (which calls
`value.then(val => #unpack(p, val), reason => #transition(p, rejected))`
— its `try`/`catch` is dead code because `then` never throws); the
object-or-function branch (read `then`: a throwing read rejects, a
callable `then` is invoked with two latched one-shot callbacks, a
non-callable `then` fulfills with the candidate); and the plain-value
branch (fulfill). -/
def unpack (m : Machine) (pid : Nat) (v : JSVal) : Machine :=
  if !(getState m pid).isPending then m
  else if isSelf pid v then
    transition m pid (.rejected (.tyErr "Chaining cycle detected for promise"))
  else
    match v with
    | .promiseRef q =>
      (thenOp m q (some (.unpackInto pid)) (some (.rejectInto pid))).1
    | .thenable _ script => runScript m pid false script
    | .thenThrowsOnRead e => transition m pid (.rejected e)
    | .thenNotCallable => transition m pid (.fulfilled v)
    | .plainObj => transition m pid (.fulfilled v)
    | .prim n => transition m pid (.fulfilled (.prim n))
    | .nullv => transition m pid (.fulfilled .nullv)
    | .undefv => transition m pid (.fulfilled .undefv)
    | .plainFun => transition m pid (.fulfilled .plainFun)
    | .tyErr s => transition m pid (.fulfilled (.tyErr s))
termination_by sizeOf v

/-- Execution of a foreign thenable's `then` body (`then.call(value,
resolvingCb, rejectingCb)` inside `#unpack`), with the local `called`
latch: the first callback invocation wins, later ones are ignored; a
throw is caught by `#unpack` and rejects only when the latch is still
clear. -/
def runScript (m : Machine) (pid : Nat) (called : Bool) :
    List (SKind × JSVal) → Machine
  | [] => m
  | (.sres, v) :: rest =>
    if called then runScript m pid true rest
    else runScript (unpack m pid v) pid true rest
  | (.srej, r) :: rest =>
    if called then runScript m pid true rest
    else runScript (transition m pid (.rejected r)) pid true rest
  | (.sthrow, e) :: _ =>
    if called then m else transition m pid (.rejected e)
termination_by l => sizeOf l

end

/-- `PinkyPromise.#run`: invoke a reaction callback; a throw rejects the
output promise, a returned value is fed through `#unpack`.  The two
internal callbacks of the `instanceof` branch perform their effect and
return `undefined`. -/
def run (m : Machine) (value : JSVal) (outId : Nat) (cb : Cb) : Machine :=
  match cb with
  | .user f =>
    match evalUser f value with
    | .error reason => transition m outId (.rejected reason)
    | .ok resolvable => unpack m outId resolvable
  | .unpackInto p => unpack (unpack m p value) outId .undefv
  | .rejectInto p => unpack (transition m p (.rejected value)) outId .undefv

/-- The payload a scheduled microtask reads at run time:
`(this.#state as { value }).value` resp. `.reason`; a field read on a
state of the other shape yields `undefined`. -/
def taskPayload (m : Machine) (t : Task) : JSVal :=
  match getState m t.src, t.onFulfilled with
  | .fulfilled v, true => v
  | .rejected r, false => r
  | _, _ => .undefv

/-- Run one scheduled listener with its run-time payload. -/
def runTask (m : Machine) (t : Task) : Machine :=
  match t.act with
  | .runCb out cb => run m (taskPayload m t) out cb
  | .passResolve out => unpack m out (taskPayload m t)
  | .passReject out => transition m out (.rejected (taskPayload m t))

/-- Pop and run the oldest microtask (ghost-logging its listener id);
no-op on an empty queue.  This is the only place a reaction is ever
invoked. -/
def stepTask (m : Machine) : Machine :=
  match m.tasks with
  | [] => m
  | t :: rest => runTask { m with tasks := rest, log := m.log ++ [t.lid] } t

/-- Drain `k` microtasks. -/
def drain : Nat → Machine → Machine
  | 0, m => m
  | k + 1, m => drain k (stepTask m)

/-- `#resolve`, the settle-fulfill function handed to the executor (and
exposed by the conformance adapter). -/
def resolveCall (m : Machine) (pid : Nat) (v : JSVal) : Machine :=
  unpack m pid v

/-- `#reject`, the settle-reject function handed to the executor. -/
def rejectCall (m : Machine) (pid : Nat) (r : JSVal) : Machine :=
  transition m pid (.rejected r)

/-- One external call to a settle function of a given promise. -/
inductive SettleCall where
  | res (v : JSVal)
  | rej (r : JSVal)

def applyCall (m : Machine) (pid : Nat) : SettleCall → Machine
  | .res v => resolveCall m pid v
  | .rej r => rejectCall m pid r

def applyCalls (m : Machine) (pid : Nat) : List SettleCall → Machine
  | [] => m
  | c :: rest => applyCalls (applyCall m pid c) pid rest

/-- One synchronous action of an executor body: call the resolve or the
reject function it received. -/
inductive EAct where
  | eres (v : JSVal)
  | erej (r : JSVal)

/-- A defunctionalized executor: the settle calls its body makes, plus
an optional trailing synchronous throw. -/
structure Exec where
  acts : List EAct
  thrown : Option JSVal

def applyEAct (m : Machine) (pid : Nat) : EAct → Machine
  | .eres v => resolveCall m pid v
  | .erej r => rejectCall m pid r

def runEActs (m : Machine) (pid : Nat) : List EAct → Machine
  | [] => m
  | a :: rest => runEActs (applyEAct m pid a) pid rest

/-- The `PinkyPromise` constructor applied to a callable executor:
allocate a pending instance, run the executor synchronously once with
the instance's `#resolve`/`#reject`, and convert a synchronous throw
into `#reject(thrown)`. -/
def construct (m : Machine) (ex : Exec) : Machine × Nat :=
  let alloc := newPromise m
  let m1 := runEActs alloc.1 alloc.2 ex.acts
  match ex.thrown with
  | some e => (rejectCall m1 alloc.2 e, alloc.2)
  | none => (m1, alloc.2)

/-- The constructor including its callability guard: `none` models any
non-callable executor argument, on which a TypeError is thrown to the
caller before any instance work happens. -/
def constructChecked (m : Machine) (exec : Option Exec) :
    Except JSVal (Machine × Nat) :=
  match exec with
  | none => .error (.tyErr "executor is not a function")
  | some ex => .ok (construct m ex)

/-- `PinkyPromise.resolve(value)` = `new PinkyPromise(res => res(value))`. -/
def staticResolve (m : Machine) (v : JSVal) : Machine × Nat :=
  construct m ⟨[.eres v], none⟩

/-- `PinkyPromise.reject(reason)` = `new PinkyPromise((_, rej) => rej(reason))`. -/
def staticReject (m : Machine) (r : JSVal) : Machine × Nat :=
  construct m ⟨[.erej r], none⟩

/-! The draft module `src/lib/pinky-promise.ts`.  Its `PromiseState` has
an optional `thenable` field on the pending arm, but no code ever assigns
it, so the `!this.#state.thenable` conjuncts of `#resolve`/`#reject` are
always true and the field is omitted from the model.  The draft class has
no `then` method and no listener dispatch, so a draft deferred is just a
state cell. -/

/-- The draft module's promise state. -/
inductive DState where
  | pending
  | fulfilled (value : JSVal)
  | rejected (reason : JSVal)

def DState.isPending : DState → Bool
  | .pending => true
  | _ => false

/-- `isThenable` of the draft module: `typeof value === "object" &&
value !== null && typeof value.then === "function"`.  Reading the `then`
member can throw (accessor), which propagates to the caller — hence the
`Except`.  A draft `PinkyPromise` instance declares no `then` member, so
own instances fail the test; function-typed values fail the
`typeof value === "object"` conjunct. -/
def isThenable : JSVal → Except JSVal Bool
  | .prim _ => .ok false
  | .nullv => .ok false
  | .undefv => .ok false
  | .promiseRef _ => .ok false
  | .plainObj => .ok false
  | .thenThrowsOnRead e => .error e
  | .thenNotCallable => .ok false
  | .thenable isFun _ => .ok (!isFun)
  | .plainFun => .ok false
  | .tyErr _ => .ok false

/-- `#reject` of the draft module: set the state cell if still pending. -/
def draftReject (s : DState) (r : JSVal) : DState :=
  if s.isPending then DState.rejected r else s

mutual

/-- `#resolve` of the draft module.  If pending, the draft runs
`isThenable(value)` and either adopts the thenable by calling
`value.then(this.#resolve, this.#reject)` (no try/catch, no latch — a
throw from the `then` body propagates to the caller as `.error`) or sets
the state to `fulfilled` with the candidate.  The `isThenable` call is
expanded here by candidate shape: an object whose `then` accessor throws
makes `isThenable` itself throw, which escapes to the caller; an object
with a callable `then` passes the test; every other shape fails it —
functions fail the `typeof value === "object"` conjunct, and own draft
instances declare no `then` member (which also makes the
`Object.is(value, this)` cycle-throw branch inside the thenable case
unreachable, so it is not modelled).  `#verifyState` has an empty body
and is omitted. -/
def draftResolve (s : DState) (v : JSVal) : Except JSVal DState :=
  if s.isPending then
    match v with
    | .thenThrowsOnRead e => .error e
    | .thenable false script => draftRunScript s script
    | .thenable true script => .ok (.fulfilled (.thenable true script))
    | .prim n => .ok (.fulfilled (.prim n))
    | .nullv => .ok (.fulfilled .nullv)
    | .undefv => .ok (.fulfilled .undefv)
    | .promiseRef q => .ok (.fulfilled (.promiseRef q))
    | .plainObj => .ok (.fulfilled .plainObj)
    | .thenNotCallable => .ok (.fulfilled .thenNotCallable)
    | .plainFun => .ok (.fulfilled .plainFun)
    | .tyErr msg => .ok (.fulfilled (.tyErr msg))
  else .ok s
termination_by sizeOf v

/-- The draft's execution of a thenable's `then` body with the draft's
own `#resolve`/`#reject` as callbacks: no one-shot latch, and any throw
propagates out. -/
def draftRunScript (s : DState) : List (SKind × JSVal) → Except JSVal DState
  | [] => .ok s
  | (.sres, v) :: rest =>
    match draftResolve s v with
    | .error e => .error e
    | .ok s' => draftRunScript s' rest
  | (.srej, r) :: rest => draftRunScript (draftReject s r) rest
  | (.sthrow, e) :: _ => .error e
termination_by l => sizeOf l

end

/-! Predicates used to state the claims. -/

/-- Candidates on which the resolution procedure finds no `then` to call:
not an own instance, not a thenable, and not a throwing `then` read.
These are the values `#unpack` fulfills with directly. -/
def isPlainVal : JSVal → Bool
  | .prim _ => true
  | .nullv => true
  | .undefv => true
  | .plainObj => true
  | .thenNotCallable => true
  | .plainFun => true
  | .tyErr _ => true
  | .promiseRef _ => false
  | .thenThrowsOnRead _ => false
  | .thenable _ _ => false

/-- Queue-state invariant of §3 of the design: a settled promise holds no
queued reactions (they have been scheduled and the queues cleared). -/
def QInv (m : Machine) : Prop :=
  ∀ pid p, getP m pid = some p → p.state.isPending = false →
    p.fulfilledListeners = [] ∧ p.rejectedListeners = []

/-- The message of the only error the core fabricates itself. -/
def cycMsg : String := "Chaining cycle detected for promise"

mutual

/-- Does a value syntactically contain the fabricated chaining-cycle
TypeError? -/
def valHasCyc : JSVal → Bool
  | .tyErr s => s = cycMsg
  | .thenThrowsOnRead e => valHasCyc e
  | .thenable _ script => scriptHasCyc script
  | _ => false
termination_by v => sizeOf v

def scriptHasCyc : List (SKind × JSVal) → Bool
  | [] => false
  | (_, v) :: rest => valHasCyc v || scriptHasCyc rest
termination_by l => sizeOf l

end

def stHasCyc : PState → Bool
  | .pending => false
  | .fulfilled v => valHasCyc v
  | .rejected r => valHasCyc r

def userHasCyc : UserFn → Bool
  | .const v => valHasCyc v
  | .throwF e => valHasCyc e
  | _ => false

def cbHasCyc : Cb → Bool
  | .user f => userHasCyc f
  | _ => false

def lactHasCyc : LAct → Bool
  | .runCb _ cb => cbHasCyc cb
  | _ => false

def promiseHasCyc (p : Promise) : Bool :=
  stHasCyc p.state || p.fulfilledListeners.any (fun l => lactHasCyc l.act)
    || p.rejectedListeners.any (fun l => lactHasCyc l.act)

/-- Does the fabricated chaining-cycle TypeError occur anywhere in the
machine (a promise state, a queued reaction, or a scheduled task)? -/
def machineHasCyc (m : Machine) : Bool :=
  m.promises.any promiseHasCyc || m.tasks.any (fun t => lactHasCyc t.act)

mutual

/-- Does the candidate mention promise `pid` in a position that the
resolution procedure feeds back into itself (the candidate itself, or a
resolving-callback payload of a nested thenable script)? -/
def valFeedsRef (pid : Nat) : JSVal → Bool
  | .promiseRef q => q == pid
  | .thenable _ script => scriptFeedsRef pid script
  | _ => false
termination_by v => sizeOf v

/-- Resolving-callback payloads of a script that mention promise `pid`. -/
def scriptFeedsRef (pid : Nat) : List (SKind × JSVal) → Bool
  | [] => false
  | (.sres, v) :: rest => valFeedsRef pid v || scriptFeedsRef pid rest
  | (_, _) :: rest => scriptFeedsRef pid rest
termination_by l => sizeOf l

end

/-! Concrete machines used to instantiate the universal statements. -/

/-- An empty runtime. -/
def mEmpty : Machine := ⟨[], [], 0, []⟩

/-- One pending promise (id 0), empty microtask queue. -/
def mPend1 : Machine := ⟨[⟨.pending, [], []⟩], [], 0, []⟩

/-- Two pending promises (ids 0 and 1), empty microtask queue. -/
def mPend2 : Machine := ⟨[⟨.pending, [], []⟩, ⟨.pending, [], []⟩], [], 0, []⟩

/-- One promise already rejected with `prim 1`. -/
def mRej1 : Machine := ⟨[⟨.rejected (.prim 1), [], []⟩], [], 0, []⟩

/-- One promise already fulfilled with `prim 3`. -/
def mFul1 : Machine := ⟨[⟨.fulfilled (.prim 3), [], []⟩], [], 0, []⟩

/-! Plumbing lemmas about the machine primitives. -/

theorem getP_lt {m : Machine} {pid : Nat} {p : Promise} (h : getP m pid = some p) :
    pid < m.promises.length :=
  (List.getElem?_eq_some.mp h).choose

theorem getP_setP_self {m : Machine} {pid : Nat} (q : Promise)
    (h : pid < m.promises.length) : getP (setP m pid q) pid = some q := by
  simp [getP, setP, List.getElem?_set_eq_of_lt _ h]

theorem getP_setP_ne {m : Machine} {pid i : Nat} (q : Promise) (h : i ≠ pid) :
    getP (setP m pid q) i = getP m i := by
  simp [getP, setP, List.getElem?_set_ne (Ne.symm h)]

theorem setP_tasks (m : Machine) (pid : Nat) (p : Promise) :
    (setP m pid p).tasks = m.tasks := rfl

theorem setP_log (m : Machine) (pid : Nat) (p : Promise) :
    (setP m pid p).log = m.log := rfl

theorem setP_nextLid (m : Machine) (pid : Nat) (p : Promise) :
    (setP m pid p).nextLid = m.nextLid := rfl

theorem setP_length (m : Machine) (pid : Nat) (p : Promise) :
    (setP m pid p).promises.length = m.promises.length := by
  simp [setP]

theorem notify_none {m : Machine} {pid : Nat} (h : getP m pid = none) :
    notify m pid = m := by
  simp only [notify, h]

theorem notify_pending {m : Machine} {pid : Nat} {p : Promise}
    (hp : getP m pid = some p) (hs : p.state = .pending) : notify m pid = m := by
  obtain ⟨st, fl, rl⟩ := p
  cases hs
  simp only [notify, hp]

theorem notify_fulfilled {m : Machine} {pid : Nat} {p : Promise} {v : JSVal}
    (hp : getP m pid = some p) (hs : p.state = .fulfilled v) :
    notify m pid =
      { setP m pid ⟨p.state, [], []⟩ with
          tasks := m.tasks ++ p.fulfilledListeners.map (mkTask pid true) } := by
  obtain ⟨st, fl, rl⟩ := p
  cases hs
  simp only [notify, hp]

theorem notify_rejected {m : Machine} {pid : Nat} {p : Promise} {r : JSVal}
    (hp : getP m pid = some p) (hs : p.state = .rejected r) :
    notify m pid =
      { setP m pid ⟨p.state, [], []⟩ with
          tasks := m.tasks ++ p.rejectedListeners.map (mkTask pid false) } := by
  obtain ⟨st, fl, rl⟩ := p
  cases hs
  simp only [notify, hp]

theorem notify_log (m : Machine) (pid : Nat) : (notify m pid).log = m.log := by
  cases h : getP m pid with
  | none => rw [notify_none h]
  | some p =>
    cases hs : p.state with
    | pending => rw [notify_pending h hs]
    | fulfilled v => rw [notify_fulfilled h hs, setP_log]
    | rejected r => rw [notify_rejected h hs, setP_log]

theorem notify_nextLid (m : Machine) (pid : Nat) :
    (notify m pid).nextLid = m.nextLid := by
  cases h : getP m pid with
  | none => rw [notify_none h]
  | some p =>
    cases hs : p.state with
    | pending => rw [notify_pending h hs]
    | fulfilled v => rw [notify_fulfilled h hs, setP_nextLid]
    | rejected r => rw [notify_rejected h hs, setP_nextLid]

theorem notify_tasks_ext (m : Machine) (pid : Nat) :
    ∃ s, (notify m pid).tasks = m.tasks ++ s := by
  cases h : getP m pid with
  | none => exact ⟨[], by rw [notify_none h]; simp⟩
  | some p =>
    cases hs : p.state with
    | pending => exact ⟨[], by rw [notify_pending h hs]; simp⟩
    | fulfilled v => exact ⟨_, by rw [notify_fulfilled h hs]⟩
    | rejected r => exact ⟨_, by rw [notify_rejected h hs]⟩

theorem notify_length (m : Machine) (pid : Nat) :
    (notify m pid).promises.length = m.promises.length := by
  cases h : getP m pid with
  | none => rw [notify_none h]
  | some p =>
    cases hs : p.state with
    | pending => rw [notify_pending h hs]
    | fulfilled v => rw [notify_fulfilled h hs]; exact setP_length m pid _
    | rejected r => rw [notify_rejected h hs]; exact setP_length m pid _

theorem notify_getP_ne {m : Machine} {pid i : Nat} (h : i ≠ pid) :
    getP (notify m pid) i = getP m i := by
  cases hg : getP m pid with
  | none => rw [notify_none hg]
  | some p =>
    cases hs : p.state with
    | pending => rw [notify_pending hg hs]
    | fulfilled v => rw [notify_fulfilled hg hs]; exact getP_setP_ne _ h
    | rejected r => rw [notify_rejected hg hs]; exact getP_setP_ne _ h

theorem notify_state (m : Machine) (pid i : Nat) :
    getState (notify m pid) i = getState m i := by
  by_cases hi : i = pid
  · subst hi
    cases hg : getP m i with
    | none => rw [notify_none hg]
    | some p =>
      cases hs : p.state with
      | pending => rw [notify_pending hg hs]
      | fulfilled v =>
        rw [notify_fulfilled hg hs]
        show getState (setP m i ⟨p.state, [], []⟩) i = getState m i
        rw [getState, getP_setP_self _ (getP_lt hg), getState, hg]
      | rejected r =>
        rw [notify_rejected hg hs]
        show getState (setP m i ⟨p.state, [], []⟩) i = getState m i
        rw [getState, getP_setP_self _ (getP_lt hg), getState, hg]
  · rw [getState, notify_getP_ne hi, getState]

theorem notify_settled_getP {m : Machine} {pid : Nat} {p : Promise} (st : PState)
    (hp : getP m pid = some p) (hpst : p.state = st) (hs : st.isPending = false) :
    getP (notify m pid) pid = some ⟨st, [], []⟩ := by
  subst hpst
  cases hst : p.state with
  | pending => rw [hst] at hs; simp [PState.isPending] at hs
  | fulfilled v =>
    rw [notify_fulfilled hp hst, hst]
    exact getP_setP_self _ (getP_lt hp)
  | rejected r =>
    rw [notify_rejected hp hst, hst]
    exact getP_setP_self _ (getP_lt hp)

theorem transition_none {m : Machine} {pid : Nat} (h : getP m pid = none)
    (st : PState) : transition m pid st = m := by
  simp only [transition, h]

theorem transition_settled {m : Machine} {pid : Nat} {p : Promise}
    (hp : getP m pid = some p) (hs : p.state.isPending = false) (st : PState) :
    transition m pid st = m := by
  simp only [transition, hp, hs]
  rfl

theorem transition_pending {m : Machine} {pid : Nat} {p : Promise}
    (hp : getP m pid = some p) (hs : p.state = .pending) (st : PState) :
    transition m pid st = notify (setP m pid { p with state := st }) pid := by
  obtain ⟨s0, fl, rl⟩ := p
  cases hs
  simp only [transition, hp, PState.isPending]
  rfl

theorem transition_log (m : Machine) (pid : Nat) (st : PState) :
    (transition m pid st).log = m.log := by
  cases h : getP m pid with
  | none => rw [transition_none h]
  | some p =>
    cases hs : p.state with
    | pending => rw [transition_pending h hs, notify_log, setP_log]
    | fulfilled v => rw [transition_settled h (by rw [hs]; rfl)]
    | rejected r => rw [transition_settled h (by rw [hs]; rfl)]

theorem transition_nextLid (m : Machine) (pid : Nat) (st : PState) :
    (transition m pid st).nextLid = m.nextLid := by
  cases h : getP m pid with
  | none => rw [transition_none h]
  | some p =>
    cases hs : p.state with
    | pending => rw [transition_pending h hs, notify_nextLid, setP_nextLid]
    | fulfilled v => rw [transition_settled h (by rw [hs]; rfl)]
    | rejected r => rw [transition_settled h (by rw [hs]; rfl)]

theorem transition_tasks_ext (m : Machine) (pid : Nat) (st : PState) :
    ∃ s, (transition m pid st).tasks = m.tasks ++ s := by
  cases h : getP m pid with
  | none => exact ⟨[], by rw [transition_none h]; simp⟩
  | some p =>
    cases hs : p.state with
    | pending =>
      rw [transition_pending h hs]
      have := notify_tasks_ext (setP m pid { p with state := st }) pid
      rw [setP_tasks] at this
      exact this
    | fulfilled v => exact ⟨[], by rw [transition_settled h (by rw [hs]; rfl)]; simp⟩
    | rejected r => exact ⟨[], by rw [transition_settled h (by rw [hs]; rfl)]; simp⟩

theorem transition_length (m : Machine) (pid : Nat) (st : PState) :
    (transition m pid st).promises.length = m.promises.length := by
  cases h : getP m pid with
  | none => rw [transition_none h]
  | some p =>
    cases hs : p.state with
    | pending => rw [transition_pending h hs, notify_length, setP_length]
    | fulfilled v => rw [transition_settled h (by rw [hs]; rfl)]
    | rejected r => rw [transition_settled h (by rw [hs]; rfl)]

theorem transition_getP_ne {m : Machine} {pid i : Nat} (h : i ≠ pid) (st : PState) :
    getP (transition m pid st) i = getP m i := by
  cases hg : getP m pid with
  | none => rw [transition_none hg]
  | some p =>
    cases hs : p.state with
    | pending => rw [transition_pending hg hs, notify_getP_ne h, getP_setP_ne _ h]
    | fulfilled v => rw [transition_settled hg (by rw [hs]; rfl)]
    | rejected r => rw [transition_settled hg (by rw [hs]; rfl)]

theorem transition_state_ne {m : Machine} {pid i : Nat} (h : i ≠ pid) (st : PState) :
    getState (transition m pid st) i = getState m i := by
  rw [getState, transition_getP_ne h, getState]

theorem transition_state_set {m : Machine} {pid : Nat} {p : Promise}
    (hp : getP m pid = some p) (hs : p.state = .pending) (st : PState) :
    getState (transition m pid st) pid = st := by
  rw [transition_pending hp hs, notify_state, getState,
    getP_setP_self _ (getP_lt hp)]

theorem transition_fulfilled_shape {m : Machine} {pid : Nat} {p : Promise}
    (hp : getP m pid = some p) (hs : p.state = .pending) (v : JSVal) :
    transition m pid (.fulfilled v) =
      { setP m pid ⟨.fulfilled v, [], []⟩ with
          tasks := m.tasks ++ p.fulfilledListeners.map (mkTask pid true) } := by
  rw [transition_pending hp hs]
  rw [notify_fulfilled (getP_setP_self { p with state := PState.fulfilled v } (getP_lt hp)) rfl]
  simp only [setP, setP_tasks, List.set_set]

theorem transition_rejected_shape {m : Machine} {pid : Nat} {p : Promise}
    (hp : getP m pid = some p) (hs : p.state = .pending) (r : JSVal) :
    transition m pid (.rejected r) =
      { setP m pid ⟨.rejected r, [], []⟩ with
          tasks := m.tasks ++ p.rejectedListeners.map (mkTask pid false) } := by
  rw [transition_pending hp hs]
  rw [notify_rejected (getP_setP_self { p with state := PState.rejected r } (getP_lt hp)) rfl]
  simp only [setP, setP_tasks, List.set_set]

theorem pushF_none {m : Machine} {pid : Nat} (h : getP m pid = none) (a : LAct) :
    pushF m pid a = m := by
  simp only [pushF, h]

theorem pushF_some {m : Machine} {pid : Nat} {p : Promise}
    (hp : getP m pid = some p) (a : LAct) :
    pushF m pid a =
      { setP m pid
          { p with fulfilledListeners := p.fulfilledListeners ++ [⟨m.nextLid, a⟩] } with
        nextLid := m.nextLid + 1 } := by
  simp only [pushF, hp]

theorem pushR_none {m : Machine} {pid : Nat} (h : getP m pid = none) (a : LAct) :
    pushR m pid a = m := by
  simp only [pushR, h]

theorem pushR_some {m : Machine} {pid : Nat} {p : Promise}
    (hp : getP m pid = some p) (a : LAct) :
    pushR m pid a =
      { setP m pid
          { p with rejectedListeners := p.rejectedListeners ++ [⟨m.nextLid, a⟩] } with
        nextLid := m.nextLid + 1 } := by
  simp only [pushR, hp]

theorem pushF_log (m : Machine) (pid : Nat) (a : LAct) :
    (pushF m pid a).log = m.log := by
  cases h : getP m pid with
  | none => rw [pushF_none h]
  | some p => rw [pushF_some h]; rfl

theorem pushR_log (m : Machine) (pid : Nat) (a : LAct) :
    (pushR m pid a).log = m.log := by
  cases h : getP m pid with
  | none => rw [pushR_none h]
  | some p => rw [pushR_some h]; rfl

theorem pushF_tasks (m : Machine) (pid : Nat) (a : LAct) :
    (pushF m pid a).tasks = m.tasks := by
  cases h : getP m pid with
  | none => rw [pushF_none h]
  | some p => rw [pushF_some h]; rfl

theorem pushR_tasks (m : Machine) (pid : Nat) (a : LAct) :
    (pushR m pid a).tasks = m.tasks := by
  cases h : getP m pid with
  | none => rw [pushR_none h]
  | some p => rw [pushR_some h]; rfl

theorem pushF_getP_ne {m : Machine} {pid i : Nat} (h : i ≠ pid) (a : LAct) :
    getP (pushF m pid a) i = getP m i := by
  cases hg : getP m pid with
  | none => rw [pushF_none hg]
  | some p => rw [pushF_some hg]; exact getP_setP_ne _ h

theorem pushR_getP_ne {m : Machine} {pid i : Nat} (h : i ≠ pid) (a : LAct) :
    getP (pushR m pid a) i = getP m i := by
  cases hg : getP m pid with
  | none => rw [pushR_none hg]
  | some p => rw [pushR_some hg]; exact getP_setP_ne _ h

theorem pushF_state (m : Machine) (pid : Nat) (a : LAct) (i : Nat) :
    getState (pushF m pid a) i = getState m i := by
  by_cases hi : i = pid
  · subst hi
    cases hg : getP m i with
    | none => rw [pushF_none hg]
    | some p =>
      rw [pushF_some hg]
      show getState
        (setP m i { p with fulfilledListeners := p.fulfilledListeners ++ [⟨m.nextLid, a⟩] }) i
        = getState m i
      rw [getState, getP_setP_self _ (getP_lt hg), getState, hg]
  · rw [getState, pushF_getP_ne hi, getState]

theorem pushR_state (m : Machine) (pid : Nat) (a : LAct) (i : Nat) :
    getState (pushR m pid a) i = getState m i := by
  by_cases hi : i = pid
  · subst hi
    cases hg : getP m i with
    | none => rw [pushR_none hg]
    | some p =>
      rw [pushR_some hg]
      show getState
        (setP m i { p with rejectedListeners := p.rejectedListeners ++ [⟨m.nextLid, a⟩] }) i
        = getState m i
      rw [getState, getP_setP_self _ (getP_lt hg), getState, hg]
  · rw [getState, pushR_getP_ne hi, getState]

theorem newPromise_snd (m : Machine) : (newPromise m).2 = m.promises.length := rfl

theorem newPromise_log (m : Machine) : (newPromise m).1.log = m.log := rfl

theorem newPromise_tasks (m : Machine) : (newPromise m).1.tasks = m.tasks := rfl

theorem newPromise_nextLid (m : Machine) : (newPromise m).1.nextLid = m.nextLid := rfl

theorem newPromise_length (m : Machine) :
    (newPromise m).1.promises.length = m.promises.length + 1 := by
  simp [newPromise]

theorem newPromise_getP_lt {m : Machine} {i : Nat} (h : i < m.promises.length) :
    getP (newPromise m).1 i = getP m i := by
  simp [newPromise, getP, List.getElem?_append_left h]

theorem newPromise_getP_self (m : Machine) :
    getP (newPromise m).1 m.promises.length = some ⟨.pending, [], []⟩ := by
  simp [newPromise, getP]

theorem newPromise_state (m : Machine) (i : Nat) :
    getState (newPromise m).1 i = getState m i := by
  rcases lt_trichotomy i m.promises.length with h | h | h
  · rw [getState, newPromise_getP_lt h, getState]
  · subst h
    rw [getState, newPromise_getP_self]
    have hn : getP m m.promises.length = none := by
      simp [getP]
    rw [getState, hn]
  · have h1 : getP m i = none := by
      simp [getP]; omega
    have h2 : getP (newPromise m).1 i = none := by
      simp [newPromise, getP]; omega
    rw [getState, h2, getState, h1]

theorem thenOp_eq (m : Machine) (src : Nat) (f r : Option Cb) :
    thenOp m src f r =
      (notify
        (pushR (pushF (newPromise m).1 src (actOfF f m.promises.length)) src
          (actOfR r m.promises.length)) src,
       m.promises.length) := by
  cases f <;> cases r <;> rfl

theorem thenOp_log (m : Machine) (src : Nat) (f r : Option Cb) :
    ((thenOp m src f r).1).log = m.log := by
  rw [thenOp_eq, notify_log, pushR_log, pushF_log, newPromise_log]

theorem thenOp_state (m : Machine) (src : Nat) (f r : Option Cb) (i : Nat) :
    getState ((thenOp m src f r).1) i = getState m i := by
  rw [thenOp_eq]
  show getState (notify _ src) i = _
  rw [notify_state, pushR_state, pushF_state, newPromise_state]

theorem thenOp_tasks_ext (m : Machine) (src : Nat) (f r : Option Cb) :
    ∃ s, ((thenOp m src f r).1).tasks = m.tasks ++ s := by
  rw [thenOp_eq]
  obtain ⟨s, hs⟩ := notify_tasks_ext
    (pushR (pushF (newPromise m).1 src (actOfF f m.promises.length)) src
      (actOfR r m.promises.length)) src
  refine ⟨s, ?_⟩
  show (notify _ src).tasks = _
  rw [hs, pushR_tasks, pushF_tasks, newPromise_tasks]

theorem unpack_settled {m : Machine} {pid : Nat}
    (h : (getState m pid).isPending = false) (v : JSVal) : unpack m pid v = m := by
  rw [unpack.eq_def]
  simp [h]

theorem runScript_nil (m : Machine) (pid : Nat) (called : Bool) :
    runScript m pid called [] = m := by
  rw [runScript]

theorem runScript_latched (m : Machine) (pid : Nat) :
    ∀ l : List (SKind × JSVal), runScript m pid true l = m
  | [] => runScript_nil m pid true
  | (.sres, v) :: rest => by rw [runScript]; simp [runScript_latched m pid rest]
  | (.srej, r) :: rest => by rw [runScript]; simp [runScript_latched m pid rest]
  | (.sthrow, e) :: rest => by rw [runScript]; simp

theorem side_trans {a b c : Machine} {pid : Nat}
    (h1 : b.log = a.log ∧ (∃ s, b.tasks = a.tasks ++ s) ∧
      ∀ i, i ≠ pid → getState b i = getState a i)
    (h2 : c.log = b.log ∧ (∃ s, c.tasks = b.tasks ++ s) ∧
      ∀ i, i ≠ pid → getState c i = getState b i) :
    c.log = a.log ∧ (∃ s, c.tasks = a.tasks ++ s) ∧
      ∀ i, i ≠ pid → getState c i = getState a i := by
  obtain ⟨l1, ⟨s1, t1⟩, g1⟩ := h1
  obtain ⟨l2, ⟨s2, t2⟩, g2⟩ := h2
  refine ⟨l2.trans l1, ⟨s1 ++ s2, ?_⟩, fun i hi => (g2 i hi).trans (g1 i hi)⟩
  rw [t2, t1, List.append_assoc]

theorem side_refl (a : Machine) (pid : Nat) :
    a.log = a.log ∧ (∃ s, a.tasks = a.tasks ++ s) ∧
      ∀ i, i ≠ pid → getState a i = getState a i :=
  ⟨rfl, ⟨[], by simp⟩, fun _ _ => rfl⟩

theorem transition_side (m : Machine) (pid : Nat) (st : PState) :
    (transition m pid st).log = m.log ∧
    (∃ s, (transition m pid st).tasks = m.tasks ++ s) ∧
    ∀ i, i ≠ pid → getState (transition m pid st) i = getState m i :=
  ⟨transition_log m pid st, transition_tasks_ext m pid st,
    fun _ hi => transition_state_ne hi st⟩

mutual

theorem unpack_side (m : Machine) (pid : Nat) (v : JSVal) :
    (unpack m pid v).log = m.log ∧
    (∃ s, (unpack m pid v).tasks = m.tasks ++ s) ∧
    ∀ i, i ≠ pid → getState (unpack m pid v) i = getState m i := by
  cases h : (getState m pid).isPending with
  | false => rw [unpack_settled h]; exact side_refl m pid
  | true =>
    rw [unpack.eq_def]
    simp only [h, Bool.not_true, Bool.false_eq_true, if_false]
    by_cases hs : isSelf pid v = true
    · simp only [hs, if_true]
      exact transition_side m pid _
    · simp only [Bool.not_eq_true] at hs
      simp only [hs, Bool.false_eq_true, if_false]
      cases v with
      | promiseRef q =>
        refine ⟨thenOp_log m q _ _, thenOp_tasks_ext m q _ _, fun i _ => thenOp_state m q _ _ i⟩
      | thenable b script => exact runScript_side m pid false script
      | thenThrowsOnRead e => exact transition_side m pid _
      | thenNotCallable => exact transition_side m pid _
      | plainObj => exact transition_side m pid _
      | prim n => exact transition_side m pid _
      | nullv => exact transition_side m pid _
      | undefv => exact transition_side m pid _
      | plainFun => exact transition_side m pid _
      | tyErr s => exact transition_side m pid _
termination_by sizeOf v

theorem runScript_side (m : Machine) (pid : Nat) (called : Bool)
    (l : List (SKind × JSVal)) :
    (runScript m pid called l).log = m.log ∧
    (∃ s, (runScript m pid called l).tasks = m.tasks ++ s) ∧
    ∀ i, i ≠ pid → getState (runScript m pid called l) i = getState m i := by
  match l with
  | [] => simp [runScript_nil]
  | (.sres, v) :: rest =>
    rw [runScript]
    cases called with
    | true => simp only [if_true]; exact runScript_side m pid true rest
    | false =>
      simp only [Bool.false_eq_true, if_false]
      exact side_trans (unpack_side m pid v)
        (runScript_side (unpack m pid v) pid true rest)
  | (.srej, r) :: rest =>
    rw [runScript]
    cases called with
    | true => simp only [if_true]; exact runScript_side m pid true rest
    | false =>
      simp only [Bool.false_eq_true, if_false]
      exact side_trans (transition_side m pid _)
        (runScript_side (transition m pid (.rejected r)) pid true rest)
  | (.sthrow, e) :: rest =>
    rw [runScript]
    cases called with
    | true => simp
    | false =>
      simp only [Bool.false_eq_true, if_false]
      exact transition_side m pid _
termination_by sizeOf l

end

theorem getState_settled {m : Machine} {pid : Nat}
    (h : (getState m pid).isPending = false) :
    ∃ p, getP m pid = some p ∧ p.state.isPending = false := by
  cases hg : getP m pid with
  | none => rw [getState, hg] at h; simp [PState.isPending] at h
  | some p => rw [getState, hg] at h; exact ⟨p, rfl, h⟩

theorem getState_pending_of_getP {m : Machine} {pid : Nat} {p : Promise}
    (hg : getP m pid = some p) (hs : p.state = .pending) :
    (getState m pid).isPending = true := by
  rw [getState, hg]
  show p.state.isPending = true
  rw [hs]
  rfl

theorem thenOp_getP_ne {m : Machine} {src i : Nat} (f r : Option Cb)
    (hi : i ≠ src) (hlt : i < m.promises.length) :
    getP ((thenOp m src f r).1) i = getP m i := by
  rw [thenOp_eq]
  show getP (notify _ src) i = _
  rw [notify_getP_ne hi, pushR_getP_ne hi, pushF_getP_ne hi, newPromise_getP_lt hlt]

/-! Behavior of `#unpack` per candidate shape (under a pending target). -/

theorem unpack_selfRef {m : Machine} {pid : Nat}
    (h : (getState m pid).isPending = true) :
    unpack m pid (.promiseRef pid) =
      transition m pid (.rejected (.tyErr cycMsg)) := by
  rw [unpack.eq_def]
  simp [h, isSelf, cycMsg]

theorem unpack_ref {m : Machine} {pid q : Nat}
    (h : (getState m pid).isPending = true) (hq : q ≠ pid) :
    unpack m pid (.promiseRef q) =
      (thenOp m q (some (.unpackInto pid)) (some (.rejectInto pid))).1 := by
  rw [unpack.eq_def]
  simp [h, isSelf, hq]

theorem unpack_thenable {m : Machine} {pid : Nat} (b : Bool)
    (script : List (SKind × JSVal)) (h : (getState m pid).isPending = true) :
    unpack m pid (.thenable b script) = runScript m pid false script := by
  rw [unpack.eq_def]
  simp [h, isSelf]

theorem unpack_thenThrows {m : Machine} {pid : Nat} (e : JSVal)
    (h : (getState m pid).isPending = true) :
    unpack m pid (.thenThrowsOnRead e) = transition m pid (.rejected e) := by
  rw [unpack.eq_def]
  simp [h, isSelf]

theorem unpack_plain {m : Machine} {pid : Nat} {v : JSVal}
    (h : (getState m pid).isPending = true) (hv : isPlainVal v = true) :
    unpack m pid v = transition m pid (.fulfilled v) := by
  rw [unpack.eq_def]
  cases v <;> simp_all [isPlainVal, isSelf]

/-! Behavior of a thenable's script under the one-shot latch. -/

theorem runScript_first_res (m : Machine) (pid : Nat) (v : JSVal)
    (rest : List (SKind × JSVal)) :
    runScript m pid false ((.sres, v) :: rest) = unpack m pid v := by
  rw [runScript]
  simp [runScript_latched]

theorem runScript_first_rej (m : Machine) (pid : Nat) (r : JSVal)
    (rest : List (SKind × JSVal)) :
    runScript m pid false ((.srej, r) :: rest) = transition m pid (.rejected r) := by
  rw [runScript]
  simp [runScript_latched]

theorem runScript_first_throw (m : Machine) (pid : Nat) (e : JSVal)
    (rest : List (SKind × JSVal)) :
    runScript m pid false ((.sthrow, e) :: rest) =
      transition m pid (.rejected e) := by
  rw [runScript]
  simp

theorem applyCall_settled {m : Machine} {pid : Nat}
    (h : (getState m pid).isPending = false) (c : SettleCall) :
    applyCall m pid c = m := by
  obtain ⟨p, hg, hs⟩ := getState_settled h
  cases c with
  | res v => exact unpack_settled h v
  | rej r => exact transition_settled hg hs _

theorem applyCalls_settled {m : Machine} {pid : Nat}
    (h : (getState m pid).isPending = false) :
    ∀ calls : List SettleCall, applyCalls m pid calls = m
  | [] => rfl
  | c :: rest => by
    show applyCalls (applyCall m pid c) pid rest = m
    rw [applyCall_settled h c]
    exact applyCalls_settled h rest

/-- C1 counterexample.  On two pending promises (outer id 0, inner id 1),
call settle-fulfill of promise 0 with the not-yet-settled promise 1, then
settle-reject of promise 0 with `prim 9`.  The first call leaves the
status pending, and the second call — far from being a silent no-op —
sets the status to rejected: the status after the sequence is not the
status set by the first call, refuting the claim on this input. -/
theorem c1_counterexample :
    getState (applyCalls mPend2 0 [.res (.promiseRef 1)]) 0 = .pending ∧
    getState (applyCalls mPend2 0 [.res (.promiseRef 1), .rej (.prim 9)]) 0 =
      .rejected (.prim 9) := by
  have hg0 : getP mPend2 0 = some ⟨.pending, [], []⟩ := rfl
  have hpend : (getState mPend2 0).isPending = true := rfl
  have h1 : applyCalls mPend2 0 [.res (.promiseRef 1)] =
      (thenOp mPend2 1 (some (.unpackInto 0)) (some (.rejectInto 0))).1 := by
    show applyCalls (applyCall mPend2 0 (.res (.promiseRef 1))) 0 [] = _
    show applyCall mPend2 0 (.res (.promiseRef 1)) = _
    show resolveCall mPend2 0 (.promiseRef 1) = _
    rw [resolveCall, unpack_ref hpend (by decide)]
  constructor
  · rw [h1, thenOp_state]
    rfl
  · show getState
      (applyCalls (applyCall mPend2 0 (.res (.promiseRef 1))) 0 [.rej (.prim 9)]) 0 = _
    have h2 : applyCall mPend2 0 (.res (.promiseRef 1)) =
        (thenOp mPend2 1 (some (.unpackInto 0)) (some (.rejectInto 0))).1 := h1
    rw [h2]
    have hg0' : getP ((thenOp mPend2 1 (some (.unpackInto 0)) (some (.rejectInto 0))).1) 0 =
        some ⟨.pending, [], []⟩ := by
      rw [thenOp_getP_ne _ _ (by decide) (by decide)]
      exact hg0
    show getState
      (rejectCall ((thenOp mPend2 1 (some (.unpackInto 0)) (some (.rejectInto 0))).1) 0
        (.prim 9)) 0 = _
    rw [rejectCall, transition_state_set hg0' rfl]

/-- C1 (amended).  The settle functions are silent no-ops once the status
is terminal: if the status of a promise is already settled, any sequence
of further settle-fulfill/settle-reject calls leaves the whole machine
unchanged; consequently, when the first call of a sequence itself makes
the status terminal, the status after the whole sequence equals the
status set by that first call.  (The original claim fails when the first
call is a settle-fulfill with a not-yet-settled thenable: the status then
stays pending and a later settle call still takes effect — see the
counterexample.) -/
theorem c1_first_settling_call_wins :
    (∀ (m : Machine) (pid : Nat) (calls : List SettleCall),
      (getState m pid).isPending = false → applyCalls m pid calls = m) ∧
    (∀ (m : Machine) (pid : Nat) (c : SettleCall) (rest : List SettleCall),
      (getState (applyCall m pid c) pid).isPending = false →
      applyCalls m pid (c :: rest) = applyCall m pid c) := by
  constructor
  · exact fun m pid calls h => applyCalls_settled h calls
  · intro m pid c rest h
    show applyCalls (applyCall m pid c) pid rest = applyCall m pid c
    exact applyCalls_settled h rest

/-- Witness for C1: on a machine whose only promise is already rejected,
a settle sequence changes nothing; and on a pending promise a first
settle-reject call fixes the status for the rest of the sequence. -/
theorem c1_witness :
    applyCalls mRej1 0 [.res (.prim 2), .rej (.prim 3)] = mRej1 ∧
    applyCalls mPend1 0 [.rej (.prim 9), .res (.prim 2)] =
      applyCall mPend1 0 (.rej (.prim 9)) :=
  ⟨c1_first_settling_call_wins.1 mRej1 0 [.res (.prim 2), .rej (.prim 3)] rfl,
   c1_first_settling_call_wins.2 mPend1 0 (.rej (.prim 9)) [.res (.prim 2)] rfl⟩

/-! Preservation of the queue-state invariant (settled promises hold no
queued reactions) by every operation of the machine. -/

theorem getP_mem {m : Machine} {pid : Nat} {p : Promise}
    (h : getP m pid = some p) : p ∈ m.promises := by
  obtain ⟨hlt, he⟩ := List.getElem?_eq_some.mp h
  exact he ▸ List.getElem_mem hlt

theorem getP_ge {m : Machine} {i : Nat} (h : m.promises.length ≤ i) :
    getP m i = none := by
  simp [getP]; omega

theorem QInv_promises {m m' : Machine} (he : m'.promises = m.promises)
    (h : QInv m) : QInv m' := by
  intro i q hgq hqs
  rw [getP, he] at hgq
  exact h i q hgq hqs

theorem QInv_set {m m' : Machine} (pid : Nat) (p' : Promise) (h : QInv m)
    (he : m'.promises = m.promises.set pid p')
    (hp' : p'.state.isPending = false →
      p'.fulfilledListeners = [] ∧ p'.rejectedListeners = []) : QInv m' := by
  intro i q hgq hqs
  rw [getP, he] at hgq
  by_cases hi : i = pid
  · subst hi
    by_cases hlt : i < m.promises.length
    · rw [List.getElem?_set_eq_of_lt _ hlt] at hgq
      cases hgq
      exact hp' hqs
    · rw [show m.promises.set i p' = m.promises from
        List.set_eq_of_length_le (by omega)] at hgq
      exact h i q hgq hqs
  · rw [List.getElem?_set_ne (Ne.symm hi)] at hgq
    exact h i q hgq hqs

theorem QInv_append_pending {m m' : Machine} (h : QInv m)
    (he : m'.promises = m.promises ++ [⟨.pending, [], []⟩]) : QInv m' := by
  intro i q hgq hqs
  rw [getP, he] at hgq
  by_cases hlt : i < m.promises.length
  · rw [List.getElem?_append_left hlt] at hgq
    exact h i q hgq hqs
  · rw [List.getElem?_append_right (by omega)] at hgq
    by_cases hi : i = m.promises.length
    · subst hi
      simp at hgq
      subst hgq
      simp [PState.isPending] at hqs
    · rw [show i - m.promises.length = (i - m.promises.length - 1) + 1 by omega] at hgq
      simp at hgq

theorem notify_QInv {m : Machine} (pid : Nat) (h : QInv m) :
    QInv (notify m pid) := by
  cases hg : getP m pid with
  | none => rw [notify_none hg]; exact h
  | some p =>
    cases hs : p.state with
    | pending => rw [notify_pending hg hs]; exact h
    | fulfilled v =>
      rw [notify_fulfilled hg hs]
      exact QInv_set pid ⟨p.state, [], []⟩ h rfl (fun _ => ⟨rfl, rfl⟩)
    | rejected r =>
      rw [notify_rejected hg hs]
      exact QInv_set pid ⟨p.state, [], []⟩ h rfl (fun _ => ⟨rfl, rfl⟩)

theorem transition_QInv {m : Machine} (pid : Nat) (st : PState) (h : QInv m) :
    QInv (transition m pid st) := by
  cases hg : getP m pid with
  | none => rw [transition_none hg]; exact h
  | some p =>
    cases hs : p.state with
    | pending =>
      cases hst : st with
      | pending =>
        rw [transition_pending hg hs]
        have hg' : getP (setP m pid { p with state := PState.pending }) pid =
            some { p with state := PState.pending } :=
          getP_setP_self _ (getP_lt hg)
        rw [notify_pending hg' rfl]
        exact QInv_set pid { p with state := PState.pending } h rfl
          (fun hf => by simp [PState.isPending] at hf)
      | fulfilled v =>
        rw [transition_fulfilled_shape hg hs]
        exact QInv_set pid ⟨.fulfilled v, [], []⟩ h rfl (fun _ => ⟨rfl, rfl⟩)
      | rejected r =>
        rw [transition_rejected_shape hg hs]
        exact QInv_set pid ⟨.rejected r, [], []⟩ h rfl (fun _ => ⟨rfl, rfl⟩)
    | fulfilled v => rw [transition_settled hg (by rw [hs]; rfl)]; exact h
    | rejected r => rw [transition_settled hg (by rw [hs]; rfl)]; exact h

theorem pushF_getP_self {m : Machine} {pid : Nat} {p : Promise}
    (hg : getP m pid = some p) (a : LAct) :
    getP (pushF m pid a) pid =
      some { p with fulfilledListeners := p.fulfilledListeners ++ [⟨m.nextLid, a⟩] } := by
  rw [pushF_some hg]
  show getP (setP m pid _) pid = _
  exact getP_setP_self _ (getP_lt hg)

theorem pushR_getP_self {m : Machine} {pid : Nat} {p : Promise}
    (hg : getP m pid = some p) (a : LAct) :
    getP (pushR m pid a) pid =
      some { p with rejectedListeners := p.rejectedListeners ++ [⟨m.nextLid, a⟩] } := by
  rw [pushR_some hg]
  show getP (setP m pid _) pid = _
  exact getP_setP_self _ (getP_lt hg)

theorem pushF_nextLid_some {m : Machine} {pid : Nat} {p : Promise}
    (hg : getP m pid = some p) (a : LAct) :
    (pushF m pid a).nextLid = m.nextLid + 1 := by
  rw [pushF_some hg]

theorem pushF_length (m : Machine) (pid : Nat) (a : LAct) :
    (pushF m pid a).promises.length = m.promises.length := by
  cases h : getP m pid with
  | none => rw [pushF_none h]
  | some p => rw [pushF_some h]; exact setP_length m pid _

theorem pushR_length (m : Machine) (pid : Nat) (a : LAct) :
    (pushR m pid a).promises.length = m.promises.length := by
  cases h : getP m pid with
  | none => rw [pushR_none h]
  | some p => rw [pushR_some h]; exact setP_length m pid _

theorem thenOp_length (m : Machine) (src : Nat) (f r : Option Cb) :
    ((thenOp m src f r).1).promises.length = m.promises.length + 1 := by
  rw [thenOp_eq]
  show (notify _ src).promises.length = _
  rw [notify_length, pushR_length, pushF_length, newPromise_length]

theorem thenOp_getP_out {m : Machine} {src : Nat}
    (hlt : src < m.promises.length) (f r : Option Cb) :
    getP ((thenOp m src f r).1) m.promises.length = some ⟨.pending, [], []⟩ := by
  rw [thenOp_eq]
  have hne : m.promises.length ≠ src := by omega
  show getP (notify _ src) m.promises.length = _
  rw [notify_getP_ne hne, pushR_getP_ne hne, pushF_getP_ne hne, newPromise_getP_self]

theorem thenOp_pending_tasks {m : Machine} {src : Nat} {p : Promise}
    (hg : getP m src = some p) (hs : p.state = .pending) (f r : Option Cb) :
    ((thenOp m src f r).1).tasks = m.tasks := by
  rw [thenOp_eq]
  have hgN : getP (newPromise m).1 src = some p := by
    rw [newPromise_getP_lt (getP_lt hg)]; exact hg
  have h1 := pushF_getP_self hgN (actOfF f m.promises.length)
  have h2 := pushR_getP_self h1 (actOfR r m.promises.length)
  show (notify _ src).tasks = _
  rw [notify_pending h2 hs, pushR_tasks, pushF_tasks, newPromise_tasks]

theorem thenOp_pending_getP_src {m : Machine} {src : Nat} {p : Promise}
    (hg : getP m src = some p) (hs : p.state = .pending) (f r : Option Cb) :
    getP ((thenOp m src f r).1) src =
      some { p with
        fulfilledListeners :=
          p.fulfilledListeners ++ [⟨m.nextLid, actOfF f m.promises.length⟩],
        rejectedListeners :=
          p.rejectedListeners ++ [⟨m.nextLid + 1, actOfR r m.promises.length⟩] } := by
  rw [thenOp_eq]
  have hgN : getP (newPromise m).1 src = some p := by
    rw [newPromise_getP_lt (getP_lt hg)]; exact hg
  have h1 := pushF_getP_self hgN (actOfF f m.promises.length)
  have h2 := pushR_getP_self h1 (actOfR r m.promises.length)
  rw [pushF_nextLid_some hgN] at h2
  show getP (notify _ src) src = _
  rw [notify_pending h2 hs]
  exact h2

theorem thenOp_settled_getP_src {m : Machine} {src : Nat} {p : Promise}
    (hg : getP m src = some p) (hsett : p.state.isPending = false)
    (f r : Option Cb) :
    getP ((thenOp m src f r).1) src = some ⟨p.state, [], []⟩ := by
  rw [thenOp_eq]
  have hgN : getP (newPromise m).1 src = some p := by
    rw [newPromise_getP_lt (getP_lt hg)]; exact hg
  have h1 := pushF_getP_self hgN (actOfF f m.promises.length)
  have h2 := pushR_getP_self h1 (actOfR r m.promises.length)
  show getP (notify _ src) src = _
  exact notify_settled_getP p.state h2 rfl hsett

theorem thenOp_fulfilled_tasks {m : Machine} {src : Nat} {p : Promise} {v : JSVal}
    (hg : getP m src = some p) (hs : p.state = .fulfilled v) (f r : Option Cb) :
    ((thenOp m src f r).1).tasks =
      m.tasks ++
        ((p.fulfilledListeners ++
            [Listener.mk m.nextLid (actOfF f m.promises.length)]).map
          (mkTask src true)) := by
  rw [thenOp_eq]
  have hgN : getP (newPromise m).1 src = some p := by
    rw [newPromise_getP_lt (getP_lt hg)]; exact hg
  have h1 := pushF_getP_self hgN (actOfF f m.promises.length)
  have h2 := pushR_getP_self h1 (actOfR r m.promises.length)
  show (notify _ src).tasks = _
  rw [notify_fulfilled h2 hs]
  simp only [pushR_tasks, pushF_tasks, newPromise_tasks]
  rfl

theorem thenOp_rejected_tasks {m : Machine} {src : Nat} {p : Promise} {r0 : JSVal}
    (hg : getP m src = some p) (hs : p.state = .rejected r0) (f r : Option Cb) :
    ((thenOp m src f r).1).tasks =
      m.tasks ++
        ((p.rejectedListeners ++
            [Listener.mk (m.nextLid + 1) (actOfR r m.promises.length)]).map
          (mkTask src false)) := by
  rw [thenOp_eq]
  have hgN : getP (newPromise m).1 src = some p := by
    rw [newPromise_getP_lt (getP_lt hg)]; exact hg
  have h1 := pushF_getP_self hgN (actOfF f m.promises.length)
  have h2 := pushR_getP_self h1 (actOfR r m.promises.length)
  rw [pushF_nextLid_some hgN] at h2
  show (notify _ src).tasks = _
  rw [notify_rejected h2 hs]
  simp only [pushR_tasks, pushF_tasks, newPromise_tasks]
  rfl

theorem thenOp_QInv (m : Machine) (src : Nat) (f r : Option Cb) (h : QInv m) :
    QInv ((thenOp m src f r).1) := by
  intro i q hgq hqs
  have hstq : getState ((thenOp m src f r).1) i = q.state := by rw [getState, hgq]
  rw [thenOp_state] at hstq
  have hlen := thenOp_length m src f r
  have hilt : i < m.promises.length + 1 := by
    by_contra hge
    rw [getP_ge (by omega)] at hgq
    cases hgq
  by_cases hif : i = m.promises.length
  · subst hif
    rw [getState, getP_ge (le_refl _)] at hstq
    rw [← hstq] at hqs
    simp [PState.isPending] at hqs
  · have hilt' : i < m.promises.length := by omega
    by_cases his : i = src
    · subst his
      cases hg : getP m i with
      | none =>
        rw [getP] at hg
        rw [List.getElem?_eq_none_iff] at hg
        omega
      | some p =>
        cases hst : p.state with
        | pending =>
          rw [getState, hg] at hstq
          have hq : p.state = q.state := hstq
          rw [hst] at hq
          rw [← hq] at hqs
          simp [PState.isPending] at hqs
        | fulfilled v =>
          rw [thenOp_settled_getP_src hg (by rw [hst]; rfl) f r] at hgq
          cases hgq
          exact ⟨rfl, rfl⟩
        | rejected r0 =>
          rw [thenOp_settled_getP_src hg (by rw [hst]; rfl) f r] at hgq
          cases hgq
          exact ⟨rfl, rfl⟩
    · rw [thenOp_getP_ne f r his hilt'] at hgq
      exact h i q hgq hqs

mutual

theorem unpack_QInv (m : Machine) (pid : Nat) (v : JSVal) (h : QInv m) :
    QInv (unpack m pid v) := by
  cases hp : (getState m pid).isPending with
  | false => rw [unpack_settled hp]; exact h
  | true =>
    rw [unpack.eq_def]
    simp only [hp, Bool.not_true, Bool.false_eq_true, if_false]
    by_cases hs : isSelf pid v = true
    · simp only [hs, if_true]
      exact transition_QInv pid _ h
    · simp only [Bool.not_eq_true] at hs
      simp only [hs, Bool.false_eq_true, if_false]
      cases v with
      | promiseRef q => exact thenOp_QInv m q _ _ h
      | thenable b script => exact runScript_QInv m pid false script h
      | thenThrowsOnRead e => exact transition_QInv pid _ h
      | thenNotCallable => exact transition_QInv pid _ h
      | plainObj => exact transition_QInv pid _ h
      | prim n => exact transition_QInv pid _ h
      | nullv => exact transition_QInv pid _ h
      | undefv => exact transition_QInv pid _ h
      | plainFun => exact transition_QInv pid _ h
      | tyErr s => exact transition_QInv pid _ h
termination_by sizeOf v

theorem runScript_QInv (m : Machine) (pid : Nat) (called : Bool)
    (l : List (SKind × JSVal)) (h : QInv m) : QInv (runScript m pid called l) := by
  match l with
  | [] => rw [runScript_nil]; exact h
  | (.sres, v) :: rest =>
    rw [runScript]
    cases called with
    | true => simp only [if_true]; exact runScript_QInv m pid true rest h
    | false =>
      simp only [Bool.false_eq_true, if_false]
      exact runScript_QInv (unpack m pid v) pid true rest (unpack_QInv m pid v h)
  | (.srej, r) :: rest =>
    rw [runScript]
    cases called with
    | true => simp only [if_true]; exact runScript_QInv m pid true rest h
    | false =>
      simp only [Bool.false_eq_true, if_false]
      exact runScript_QInv (transition m pid (.rejected r)) pid true rest
        (transition_QInv pid _ h)
  | (.sthrow, e) :: rest =>
    rw [runScript]
    cases called with
    | true => simp only [if_true]; exact h
    | false =>
      simp only [Bool.false_eq_true, if_false]
      exact transition_QInv pid _ h
termination_by sizeOf l

end

theorem resolveCall_QInv (m : Machine) (pid : Nat) (v : JSVal) (h : QInv m) :
    QInv (resolveCall m pid v) :=
  unpack_QInv m pid v h

theorem rejectCall_QInv (m : Machine) (pid : Nat) (r : JSVal) (h : QInv m) :
    QInv (rejectCall m pid r) :=
  transition_QInv pid _ h

theorem run_QInv (m : Machine) (value : JSVal) (outId : Nat) (cb : Cb)
    (h : QInv m) : QInv (run m value outId cb) := by
  cases cb with
  | user f =>
    rw [run]
    cases evalUser f value with
    | error reason => exact transition_QInv outId _ h
    | ok resolvable => exact unpack_QInv m outId resolvable h
  | unpackInto p =>
    exact unpack_QInv _ outId _ (unpack_QInv m p value h)
  | rejectInto p =>
    exact unpack_QInv _ outId _ (transition_QInv p _ h)

theorem runTask_QInv (m : Machine) (t : Task) (h : QInv m) :
    QInv (runTask m t) := by
  cases ha : t.act with
  | runCb out cb => rw [runTask, ha]; exact run_QInv m _ out cb h
  | passResolve out => rw [runTask, ha]; exact unpack_QInv m out _ h
  | passReject out => rw [runTask, ha]; exact transition_QInv out _ h

theorem stepTask_QInv (m : Machine) (h : QInv m) : QInv (stepTask m) := by
  cases htk : m.tasks with
  | nil => simp only [stepTask, htk]; exact h
  | cons t rest =>
    simp only [stepTask, htk]
    exact runTask_QInv _ t (fun i q hgq hqs => h i q hgq hqs)

theorem runEActs_QInv (m : Machine) (pid : Nat) (acts : List EAct) (h : QInv m) :
    QInv (runEActs m pid acts) := by
  induction acts generalizing m with
  | nil => exact h
  | cons a rest ih =>
    show QInv (runEActs (applyEAct m pid a) pid rest)
    refine ih _ ?_
    cases a with
    | eres v => exact resolveCall_QInv m pid v h
    | erej r => exact rejectCall_QInv m pid r h

theorem construct_QInv (m : Machine) (ex : Exec) (h : QInv m) :
    QInv (construct m ex).1 := by
  have hN : QInv (newPromise m).1 := QInv_append_pending h rfl
  have hA : QInv (runEActs (newPromise m).1 (newPromise m).2 ex.acts) :=
    runEActs_QInv _ _ _ hN
  cases ht : ex.thrown with
  | none => simp only [construct, ht]; exact hA
  | some e => simp only [construct, ht]; exact rejectCall_QInv _ _ e hA

/-- C9.  Every public operation preserves the queue-state invariant
"a settled promise holds no queued reactions": construction, `then`
(including on an already-settled source, where the listeners pushed by
`then` are immediately scheduled by `#notify` and both queues cleared),
the settle-fulfill and settle-reject functions, and the execution of one
scheduled microtask.  For a settled source, `then` moreover leaves the
source's queues empty with its state untouched. -/
theorem c9_queue_invariant_preserved :
    (∀ (m : Machine) (ex : Exec), QInv m → QInv (construct m ex).1) ∧
    (∀ (m : Machine) (src : Nat) (f r : Option Cb), QInv m →
      QInv ((thenOp m src f r).1)) ∧
    (∀ (m : Machine) (pid : Nat) (v : JSVal), QInv m →
      QInv (resolveCall m pid v)) ∧
    (∀ (m : Machine) (pid : Nat) (r : JSVal), QInv m →
      QInv (rejectCall m pid r)) ∧
    (∀ m : Machine, QInv m → QInv (stepTask m)) ∧
    (∀ (m : Machine) (src : Nat) (p : Promise) (f r : Option Cb),
      getP m src = some p → p.state.isPending = false →
      getP ((thenOp m src f r).1) src = some ⟨p.state, [], []⟩) :=
  ⟨fun m ex h => construct_QInv m ex h,
   fun m src f r h => thenOp_QInv m src f r h,
   fun m pid v h => resolveCall_QInv m pid v h,
   fun m pid r h => rejectCall_QInv m pid r h,
   fun m h => stepTask_QInv m h,
   fun _ _ _ f r hg hs => thenOp_settled_getP_src hg hs f r⟩

/-- Witness for C9: the invariant holds of a machine with one rejected
promise, is preserved by a `then` call on it, and that `then` call leaves
the settled promise's queues empty. -/
theorem c9_witness :
    QInv mRej1 ∧
    QInv ((thenOp mRej1 0 (some (.user .idFn)) (some (.user .idFn))).1) ∧
    getP ((thenOp mRej1 0 (some (.user .idFn)) (some (.user .idFn))).1) 0 =
      some ⟨.rejected (.prim 1), [], []⟩ := by
  have hq : QInv mRej1 := by
    intro i q hgq hqs
    cases i with
    | zero =>
      cases hgq
      exact ⟨rfl, rfl⟩
    | succ n =>
      rw [getP] at hgq
      simp [mRej1] at hgq
  refine ⟨hq, c9_queue_invariant_preserved.2.1 mRej1 0 _ _ hq, ?_⟩
  exact c9_queue_invariant_preserved.2.2.2.2.2 mRej1 0 ⟨.rejected (.prim 1), [], []⟩
    _ _ rfl rfl

/-- C4.  When the resolution procedure invokes a foreign thenable's
callable `then` with its two one-shot callbacks, the local `called` latch
makes only the first invocation of either callback effective: whatever
follows the first action of the `then` body (further resolve or reject
calls, or a trailing throw) leaves the machine exactly as the first
action alone does — a first resolving call recurses into the resolution
procedure, a first rejecting call transitions to Rejected; a throw before
either callback fired transitions the target to Rejected with the thrown
value, while a throw after a callback fired (covered by the arbitrary
tail) is ignored; a `then` body that does nothing leaves the machine
unchanged. -/
theorem c4_one_shot_latch :
    ∀ (m : Machine) (pid : Nat) (b : Bool),
      (getState m pid).isPending = true →
      (∀ (v : JSVal) (rest : List (SKind × JSVal)),
        unpack m pid (.thenable b ((.sres, v) :: rest)) = unpack m pid v) ∧
      (∀ (r : JSVal) (rest : List (SKind × JSVal)),
        unpack m pid (.thenable b ((.srej, r) :: rest)) =
          transition m pid (.rejected r)) ∧
      (∀ (e : JSVal) (rest : List (SKind × JSVal)),
        unpack m pid (.thenable b ((.sthrow, e) :: rest)) =
          transition m pid (.rejected e)) ∧
      unpack m pid (.thenable b []) = m := by
  intro m pid b h
  refine ⟨?_, ?_, ?_, ?_⟩
  · intro v rest
    rw [unpack_thenable b _ h, runScript_first_res]
  · intro r rest
    rw [unpack_thenable b _ h, runScript_first_rej]
  · intro e rest
    rw [unpack_thenable b _ h, runScript_first_throw]
  · rw [unpack_thenable b _ h, runScript_nil]

/-- Witness for C4: on a pending promise, a thenable whose `then` body
resolves with 7, then rejects with 5 and finally throws behaves exactly
like resolving with 7 directly. -/
theorem c4_witness :
    (getState mPend1 0).isPending = true ∧
    unpack mPend1 0
        (.thenable false [(.sres, .prim 7), (.srej, .prim 5), (.sthrow, .prim 3)]) =
      unpack mPend1 0 (.prim 7) :=
  ⟨rfl, (c4_one_shot_latch mPend1 0 false rfl).1 (.prim 7)
    [(.srej, .prim 5), (.sthrow, .prim 3)]⟩

/-- C5.  For a pending promise, a candidate whose `then` read throws
`e` makes the promise transition to Rejected with `e` as the reason, and
any candidate with no callable `then` — null, undefined, a primitive, a
plain object, an object whose `then` member is not callable, a plain
function, or an Error instance — makes it transition to Fulfilled with
the candidate itself as a plain value. -/
theorem c5_then_read_and_plain_values :
    ∀ (m : Machine) (pid : Nat) (p : Promise),
      getP m pid = some p → p.state = .pending →
      (∀ e : JSVal,
        getState (unpack m pid (.thenThrowsOnRead e)) pid = .rejected e) ∧
      (∀ v : JSVal, isPlainVal v = true →
        getState (unpack m pid v) pid = .fulfilled v) := by
  intro m pid p hg hs
  have hpend := getState_pending_of_getP hg hs
  constructor
  · intro e
    rw [unpack_thenThrows e hpend, transition_state_set hg hs]
  · intro v hv
    rw [unpack_plain hpend hv, transition_state_set hg hs]

/-- Witness for C5: a throwing `then` read rejects with the thrown value;
`null` fulfills as a plain value. -/
theorem c5_witness :
    getState (unpack mPend1 0 (.thenThrowsOnRead (.prim 8))) 0 =
      .rejected (.prim 8) ∧
    getState (unpack mPend1 0 .nullv) 0 = .fulfilled .nullv :=
  ⟨(c5_then_read_and_plain_values mPend1 0 ⟨.pending, [], []⟩ rfl rfl).1 (.prim 8),
   (c5_then_read_and_plain_values mPend1 0 ⟨.pending, [], []⟩ rfl rfl).2 .nullv rfl⟩

mutual

theorem unpack_length_le (m : Machine) (pid : Nat) (v : JSVal) :
    m.promises.length ≤ (unpack m pid v).promises.length := by
  cases hp : (getState m pid).isPending with
  | false => rw [unpack_settled hp]
  | true =>
    rw [unpack.eq_def]
    simp only [hp, Bool.not_true, Bool.false_eq_true, if_false]
    by_cases hs : isSelf pid v = true
    · simp only [hs, if_true]
      rw [transition_length]
    · simp only [Bool.not_eq_true] at hs
      simp only [hs, Bool.false_eq_true, if_false]
      cases v with
      | promiseRef q => rw [thenOp_length]; omega
      | thenable b script => exact runScript_length_le m pid false script
      | thenThrowsOnRead e => rw [transition_length]
      | thenNotCallable => rw [transition_length]
      | plainObj => rw [transition_length]
      | prim n => rw [transition_length]
      | nullv => rw [transition_length]
      | undefv => rw [transition_length]
      | plainFun => rw [transition_length]
      | tyErr s => rw [transition_length]
termination_by sizeOf v

theorem runScript_length_le (m : Machine) (pid : Nat) (called : Bool)
    (l : List (SKind × JSVal)) :
    m.promises.length ≤ (runScript m pid called l).promises.length := by
  match l with
  | [] => rw [runScript_nil]
  | (.sres, v) :: rest =>
    rw [runScript]
    cases called with
    | true => simp only [if_true]; exact runScript_length_le m pid true rest
    | false =>
      simp only [Bool.false_eq_true, if_false]
      exact (unpack_length_le m pid v).trans
        (runScript_length_le (unpack m pid v) pid true rest)
  | (.srej, r) :: rest =>
    rw [runScript]
    cases called with
    | true => simp only [if_true]; exact runScript_length_le m pid true rest
    | false =>
      simp only [Bool.false_eq_true, if_false]
      refine le_trans ?_ (runScript_length_le (transition m pid (.rejected r)) pid true rest)
      rw [transition_length]
  | (.sthrow, e) :: rest =>
    rw [runScript]
    cases called with
    | true => simp only [if_true]; exact le_refl _
    | false =>
      simp only [Bool.false_eq_true, if_false]
      rw [transition_length]
termination_by sizeOf l

end

theorem runEActs_length_le (m : Machine) (pid : Nat) (acts : List EAct) :
    m.promises.length ≤ (runEActs m pid acts).promises.length := by
  induction acts generalizing m with
  | nil => exact le_refl _
  | cons a rest ih =>
    show m.promises.length ≤ (runEActs (applyEAct m pid a) pid rest).promises.length
    refine le_trans ?_ (ih (applyEAct m pid a))
    cases a with
    | eres v => exact unpack_length_le m pid v
    | erej r =>
      show m.promises.length ≤ (transition m pid (.rejected r)).promises.length
      rw [transition_length]

/-- C8.  The constructor throws a TypeError to its caller exactly when
the executor argument is not callable; for a callable executor it returns
normally (the executor runs synchronously, once, inside the constructor),
a synchronous throw from the executor becomes the rejection reason of the
new instance when the executor has not already settled it, and when the
executor has already settled the instance the throw is swallowed (the
settled state survives unchanged).  All other public operations are total
functions of the machine — no exception path exists for them in the
model. -/
theorem c8_constructor_contract :
    (∀ m : Machine,
      constructChecked m none = .error (.tyErr "executor is not a function")) ∧
    (∀ (m : Machine) (ex : Exec),
      constructChecked m (some ex) = .ok (construct m ex)) ∧
    (∀ (m : Machine) (acts : List EAct) (e : JSVal),
      (getState (runEActs (newPromise m).1 (newPromise m).2 acts)
        (newPromise m).2).isPending = true →
      getState (construct m ⟨acts, some e⟩).1 (construct m ⟨acts, some e⟩).2 =
        .rejected e) ∧
    (∀ (m : Machine) (acts : List EAct) (e : JSVal),
      (getState (runEActs (newPromise m).1 (newPromise m).2 acts)
        (newPromise m).2).isPending = false →
      getState (construct m ⟨acts, some e⟩).1 (construct m ⟨acts, some e⟩).2 =
        getState (runEActs (newPromise m).1 (newPromise m).2 acts)
          (newPromise m).2) := by
  refine ⟨fun m => rfl, fun m ex => rfl, ?_, ?_⟩
  · intro m acts e hpend
    have hlt : (newPromise m).2 <
        (runEActs (newPromise m).1 (newPromise m).2 acts).promises.length := by
      have h1 := runEActs_length_le (newPromise m).1 (newPromise m).2 acts
      rw [newPromise_length] at h1
      show m.promises.length < _
      omega
    cases hg : getP (runEActs (newPromise m).1 (newPromise m).2 acts)
        (newPromise m).2 with
    | none =>
      rw [getP, List.getElem?_eq_none_iff] at hg
      omega
    | some p =>
      have hps : p.state = .pending := by
        rw [getState, hg] at hpend
        have hp2 : p.state.isPending = true := hpend
        cases hq : p.state with
        | pending => rfl
        | fulfilled v => rw [hq] at hp2; simp [PState.isPending] at hp2
        | rejected r0 => rw [hq] at hp2; simp [PState.isPending] at hp2
      show getState
        (transition (runEActs (newPromise m).1 (newPromise m).2 acts)
          (newPromise m).2 (.rejected e)) (newPromise m).2 = .rejected e
      rw [transition_state_set hg hps]
  · intro m acts e hsett
    obtain ⟨p, hg, hps⟩ := getState_settled hsett
    show getState
      (transition (runEActs (newPromise m).1 (newPromise m).2 acts)
        (newPromise m).2 (.rejected e)) (newPromise m).2 =
      getState (runEActs (newPromise m).1 (newPromise m).2 acts) (newPromise m).2
    rw [transition_settled hg hps]

/-- Witness for C8: an executor that does nothing and then throws
produces a rejected instance; an executor that resolves with 1 and then
throws keeps the fulfilled state. -/
theorem c8_witness :
    getState (construct mEmpty ⟨[], some (.prim 9)⟩).1
        (construct mEmpty ⟨[], some (.prim 9)⟩).2 = .rejected (.prim 9) ∧
    getState (construct mEmpty ⟨[.eres (.prim 1)], some (.prim 9)⟩).1
        (construct mEmpty ⟨[.eres (.prim 1)], some (.prim 9)⟩).2 =
      getState (runEActs (newPromise mEmpty).1 (newPromise mEmpty).2
        [.eres (.prim 1)]) (newPromise mEmpty).2 := by
  constructor
  · exact c8_constructor_contract.2.2.1 mEmpty [] (.prim 9) rfl
  · refine c8_constructor_contract.2.2.2 mEmpty [.eres (.prim 1)] (.prim 9) ?_
    rw [show runEActs (newPromise mEmpty).1 (newPromise mEmpty).2 [.eres (.prim 1)] =
      transition (newPromise mEmpty).1 0 (.fulfilled (.prim 1)) from
        unpack_plain rfl rfl]
    rfl

theorem draftResolve_plain {v : JSVal} (hv : isPlainVal v = true) :
    draftResolve DState.pending v = .ok (.fulfilled v) := by
  rw [draftResolve.eq_def]
  cases v <;> simp_all [isPlainVal, isThenable, DState.isPending]

/-- C10 counterexample.  On the function-typed thenable
`{ then: f => f(7) }` (a callable object) the final module's resolution
procedure adopts it and fulfills the promise with 7, while the draft's
`#resolve` — whose `isThenable` requires `typeof value === "object"`,
which a function fails — treats it as a plain value and fulfills with
the function itself: the two final settlement states differ in their
payload. -/
theorem c10_counterexample :
    getState (unpack mPend1 0 (.thenable true [(.sres, .prim 7)])) 0 =
      .fulfilled (.prim 7) ∧
    draftResolve .pending (.thenable true [(.sres, .prim 7)]) =
      .ok (.fulfilled (.thenable true [(.sres, .prim 7)])) ∧
    JSVal.prim 7 ≠ JSVal.thenable true [(.sres, .prim 7)] := by
  refine ⟨?_, ?_, ?_⟩
  · have h0 : (getState mPend1 0).isPending = true := rfl
    have hg0 : getP mPend1 0 = some ⟨.pending, [], []⟩ := rfl
    have hpl : isPlainVal (JSVal.prim 7) = true := rfl
    rw [unpack_thenable _ _ h0, runScript_first_res, unpack_plain h0 hpl,
      transition_state_set hg0 rfl]
  · rw [draftResolve.eq_def]
    simp [DState.isPending]
  · simp

/-- C10 (amended).  The draft module's resolution step (`#resolve` of
`src/lib/pinky-promise.ts`, with its `isThenable` test) and the final
implementation's resolution procedure (`#unpack`) produce the same final
settlement state — fulfilled with the candidate itself — on every
candidate without a callable `then`: null, undefined, primitives, plain
objects, objects whose `then` member is not callable, plain functions and
Error values.  They do not coincide in general: they diverge on
function-typed thenables (see the counterexample), on self-resolution
(the final `#unpack` rejects with the chaining-cycle TypeError, while the
draft's cycle guard sits behind its `isThenable` test, which a draft
instance — having no `then` member — never passes), and on throwing
`then` reads (the draft lets the throw escape to its caller). -/
theorem c10_draft_final_agree_on_plain :
    ∀ (m : Machine) (pid : Nat) (p : Promise),
      getP m pid = some p → p.state = .pending →
      ∀ v : JSVal, isPlainVal v = true →
        getState (unpack m pid v) pid = .fulfilled v ∧
        draftResolve .pending v = .ok (.fulfilled v) := by
  intro m pid p hg hs v hv
  constructor
  · rw [unpack_plain (getState_pending_of_getP hg hs) hv, transition_state_set hg hs]
  · exact draftResolve_plain hv

/-- Witness for C10: on a plain object both resolution procedures
fulfill with the object itself. -/
theorem c10_witness :
    getState (unpack mPend1 0 .plainObj) 0 = .fulfilled .plainObj ∧
    draftResolve .pending .plainObj = .ok (.fulfilled .plainObj) :=
  c10_draft_final_agree_on_plain mPend1 0 ⟨.pending, [], []⟩ rfl rfl .plainObj rfl

/-! Provenance of the fabricated chaining-cycle error: no operation of
the resolution procedure creates it unless the candidate feeds the
target promise back into itself. -/

theorem promisesNoCyc {m : Machine} (h : machineHasCyc m = false) :
    ∀ p ∈ m.promises, promiseHasCyc p = false := by
  rw [machineHasCyc, Bool.or_eq_false_iff] at h
  intro p hp
  simpa using List.any_eq_false.mp h.1 p hp

theorem tasksNoCyc {m : Machine} (h : machineHasCyc m = false) :
    ∀ t ∈ m.tasks, lactHasCyc t.act = false := by
  rw [machineHasCyc, Bool.or_eq_false_iff] at h
  intro t ht
  simpa using List.any_eq_false.mp h.2 t ht

theorem mkNoCyc {m : Machine}
    (h1 : ∀ p ∈ m.promises, promiseHasCyc p = false)
    (h2 : ∀ t ∈ m.tasks, lactHasCyc t.act = false) :
    machineHasCyc m = false := by
  rw [machineHasCyc, Bool.or_eq_false_iff]
  exact ⟨List.any_eq_false.mpr (fun x hx => by simp [h1 x hx]),
    List.any_eq_false.mpr (fun x hx => by simp [h2 x hx])⟩

theorem promiseNoCyc_parts {p : Promise} (h : promiseHasCyc p = false) :
    stHasCyc p.state = false ∧
    (∀ l ∈ p.fulfilledListeners, lactHasCyc l.act = false) ∧
    (∀ l ∈ p.rejectedListeners, lactHasCyc l.act = false) := by
  rw [promiseHasCyc, Bool.or_eq_false_iff, Bool.or_eq_false_iff] at h
  refine ⟨h.1.1, fun l hl => ?_, fun l hl => ?_⟩
  · simpa using List.any_eq_false.mp h.1.2 l hl
  · simpa using List.any_eq_false.mp h.2 l hl

theorem notify_noCyc {m : Machine} (pid : Nat) (h : machineHasCyc m = false) :
    machineHasCyc (notify m pid) = false := by
  cases hg : getP m pid with
  | none => rw [notify_none hg]; exact h
  | some p =>
    have hp := promiseNoCyc_parts (promisesNoCyc h p (getP_mem hg))
    cases hs : p.state with
    | pending => rw [notify_pending hg hs]; exact h
    | fulfilled v =>
      rw [notify_fulfilled hg hs]
      refine mkNoCyc ?_ ?_
      · intro q hq
        rcases List.mem_or_eq_of_mem_set hq with h1 | h1
        · exact promisesNoCyc h q h1
        · subst h1
          simp [promiseHasCyc, hp.1]
      · intro t ht
        rcases List.mem_append.mp ht with h1 | h1
        · exact tasksNoCyc h t h1
        · obtain ⟨l, hl, he⟩ := List.mem_map.mp h1
          rw [← he]
          exact hp.2.1 l hl
    | rejected r =>
      rw [notify_rejected hg hs]
      refine mkNoCyc ?_ ?_
      · intro q hq
        rcases List.mem_or_eq_of_mem_set hq with h1 | h1
        · exact promisesNoCyc h q h1
        · subst h1
          simp [promiseHasCyc, hp.1]
      · intro t ht
        rcases List.mem_append.mp ht with h1 | h1
        · exact tasksNoCyc h t h1
        · obtain ⟨l, hl, he⟩ := List.mem_map.mp h1
          rw [← he]
          exact hp.2.2 l hl

theorem transition_noCyc {m : Machine} {st : PState} (pid : Nat)
    (hst : stHasCyc st = false) (h : machineHasCyc m = false) :
    machineHasCyc (transition m pid st) = false := by
  cases hg : getP m pid with
  | none => rw [transition_none hg]; exact h
  | some p =>
    have hp := promiseNoCyc_parts (promisesNoCyc h p (getP_mem hg))
    cases hs : p.state with
    | pending =>
      rw [transition_pending hg hs]
      refine notify_noCyc pid (mkNoCyc ?_ ?_)
      · intro q hq
        rcases List.mem_or_eq_of_mem_set (by exact hq) with h1 | h1
        · exact promisesNoCyc h q h1
        · subst h1
          simp only [promiseHasCyc]
          simp [hst, hp.2.1, hp.2.2, List.any_eq_false]
          constructor
          · intro l hl; exact hp.2.1 l hl
          · intro l hl; exact hp.2.2 l hl
      · intro t ht
        exact tasksNoCyc h t ht
    | fulfilled v => rw [transition_settled hg (by rw [hs]; rfl)]; exact h
    | rejected r => rw [transition_settled hg (by rw [hs]; rfl)]; exact h

theorem pushF_noCyc {m : Machine} {a : LAct} (pid : Nat)
    (ha : lactHasCyc a = false) (h : machineHasCyc m = false) :
    machineHasCyc (pushF m pid a) = false := by
  cases hg : getP m pid with
  | none => rw [pushF_none hg]; exact h
  | some p =>
    have hp := promiseNoCyc_parts (promisesNoCyc h p (getP_mem hg))
    rw [pushF_some hg]
    refine mkNoCyc ?_ ?_
    · intro q hq
      rcases List.mem_or_eq_of_mem_set (by exact hq) with h1 | h1
      · exact promisesNoCyc h q h1
      · subst h1
        simp only [promiseHasCyc]
        simp [hp.1, List.any_eq_false, ha]
        constructor
        · intro l hl; exact hp.2.1 l hl
        · intro l hl; exact hp.2.2 l hl
    · intro t ht
      exact tasksNoCyc h t ht

theorem pushR_noCyc {m : Machine} {a : LAct} (pid : Nat)
    (ha : lactHasCyc a = false) (h : machineHasCyc m = false) :
    machineHasCyc (pushR m pid a) = false := by
  cases hg : getP m pid with
  | none => rw [pushR_none hg]; exact h
  | some p =>
    have hp := promiseNoCyc_parts (promisesNoCyc h p (getP_mem hg))
    rw [pushR_some hg]
    refine mkNoCyc ?_ ?_
    · intro q hq
      rcases List.mem_or_eq_of_mem_set (by exact hq) with h1 | h1
      · exact promisesNoCyc h q h1
      · subst h1
        simp only [promiseHasCyc]
        simp [hp.1, List.any_eq_false, ha]
        constructor
        · intro l hl; exact hp.2.1 l hl
        · intro l hl; exact hp.2.2 l hl
    · intro t ht
      exact tasksNoCyc h t ht

theorem newPromise_noCyc {m : Machine} (h : machineHasCyc m = false) :
    machineHasCyc (newPromise m).1 = false := by
  refine mkNoCyc ?_ ?_
  · intro q hq
    rcases List.mem_append.mp hq with h1 | h1
    · exact promisesNoCyc h q h1
    · simp at h1
      subst h1
      simp [promiseHasCyc, stHasCyc]
  · intro t ht
    exact tasksNoCyc h t ht

theorem thenOp_noCyc {m : Machine} {f r : Option Cb} (src : Nat)
    (hf : ∀ cb, f = some cb → cbHasCyc cb = false)
    (hr : ∀ cb, r = some cb → cbHasCyc cb = false)
    (h : machineHasCyc m = false) :
    machineHasCyc ((thenOp m src f r).1) = false := by
  rw [thenOp_eq]
  refine notify_noCyc src (pushR_noCyc src ?_ (pushF_noCyc src ?_ (newPromise_noCyc h)))
  · cases r with
    | none => rfl
    | some cb => exact hr cb rfl
  · cases f with
    | none => rfl
    | some cb => exact hf cb rfl

mutual

theorem unpack_noCyc (m : Machine) (pid : Nat) (v : JSVal)
    (h : machineHasCyc m = false) (hv : valHasCyc v = false)
    (hsf : valFeedsRef pid v = false) :
    machineHasCyc (unpack m pid v) = false := by
  cases hp : (getState m pid).isPending with
  | false => rw [unpack_settled hp]; exact h
  | true =>
    rw [unpack.eq_def]
    simp only [hp, Bool.not_true, Bool.false_eq_true, if_false]
    by_cases hs : isSelf pid v = true
    · exfalso
      cases v <;> simp [isSelf] at hs
      subst hs
      simp [valFeedsRef] at hsf
    · simp only [Bool.not_eq_true] at hs
      simp only [hs, Bool.false_eq_true, if_false]
      cases v with
      | promiseRef q =>
        refine thenOp_noCyc q ?_ ?_ h
        · intro cb hcb; cases hcb; rfl
        · intro cb hcb; cases hcb; rfl
      | thenable b script =>
        refine runScript_noCyc m pid false script h ?_ ?_
        · simpa [valHasCyc] using hv
        · simpa [valFeedsRef] using hsf
      | thenThrowsOnRead e =>
        refine transition_noCyc pid ?_ h
        simpa [stHasCyc, valHasCyc] using hv
      | thenNotCallable => exact transition_noCyc pid (by simpa [stHasCyc] using hv) h
      | plainObj => exact transition_noCyc pid (by simpa [stHasCyc] using hv) h
      | prim n => exact transition_noCyc pid (by simpa [stHasCyc] using hv) h
      | nullv => exact transition_noCyc pid (by simpa [stHasCyc] using hv) h
      | undefv => exact transition_noCyc pid (by simpa [stHasCyc] using hv) h
      | plainFun => exact transition_noCyc pid (by simpa [stHasCyc] using hv) h
      | tyErr s => exact transition_noCyc pid (by simpa [stHasCyc] using hv) h
termination_by sizeOf v

theorem runScript_noCyc (m : Machine) (pid : Nat) (called : Bool)
    (l : List (SKind × JSVal)) (h : machineHasCyc m = false)
    (hl : scriptHasCyc l = false) (hlf : scriptFeedsRef pid l = false) :
    machineHasCyc (runScript m pid called l) = false := by
  match l with
  | [] => rw [runScript_nil]; exact h
  | (.sres, v) :: rest =>
    have hparts : valHasCyc v = false ∧ scriptHasCyc rest = false := by
      simpa [scriptHasCyc, Bool.or_eq_false_iff] using hl
    have hfp : valFeedsRef pid v = false ∧ scriptFeedsRef pid rest = false := by
      simpa [scriptFeedsRef, Bool.or_eq_false_iff] using hlf
    rw [runScript]
    cases called with
    | true =>
      simp only [if_true]
      exact runScript_noCyc m pid true rest h hparts.2 hfp.2
    | false =>
      simp only [Bool.false_eq_true, if_false]
      exact runScript_noCyc (unpack m pid v) pid true rest
        (unpack_noCyc m pid v h hparts.1 hfp.1) hparts.2 hfp.2
  | (.srej, r) :: rest =>
    have hparts : valHasCyc r = false ∧ scriptHasCyc rest = false := by
      simpa [scriptHasCyc, Bool.or_eq_false_iff] using hl
    have hfp : scriptFeedsRef pid rest = false := by
      simpa [scriptFeedsRef] using hlf
    rw [runScript]
    cases called with
    | true =>
      simp only [if_true]
      exact runScript_noCyc m pid true rest h hparts.2 hfp
    | false =>
      simp only [Bool.false_eq_true, if_false]
      exact runScript_noCyc (transition m pid (.rejected r)) pid true rest
        (transition_noCyc pid (by simpa [stHasCyc] using hparts.1) h) hparts.2 hfp
  | (.sthrow, e) :: rest =>
    have hparts : valHasCyc e = false ∧ scriptHasCyc rest = false := by
      simpa [scriptHasCyc, Bool.or_eq_false_iff] using hl
    rw [runScript]
    cases called with
    | true => simp only [if_true]; exact h
    | false =>
      simp only [Bool.false_eq_true, if_false]
      exact transition_noCyc pid (by simpa [stHasCyc] using hparts.1) h
termination_by sizeOf l

end

/-- C3.  Calling the settle-fulfill function of a pending promise with
the promise itself (reference identity) transitions it to Rejected with
the fabricated "Chaining cycle detected for promise" TypeError; the call
is an ordinary total operation of the machine — it neither hangs (the
resolution procedure is a terminating function) nor throws to the caller
(all throw paths inside `#unpack` are caught).  Moreover this is the
only condition under which the core fabricates that error: if the
machine nowhere contains the fabricated error and the candidate neither
contains it nor feeds the target promise back into the resolution
procedure (as the candidate itself or as a resolving-callback payload of
a nested thenable script), the machine after the call still nowhere
contains it. -/
theorem c3_self_resolution_cycle :
    (∀ (m : Machine) (pid : Nat) (p : Promise),
      getP m pid = some p → p.state = .pending →
      getState (resolveCall m pid (.promiseRef pid)) pid =
        .rejected (.tyErr cycMsg)) ∧
    (∀ (m : Machine) (pid : Nat) (v : JSVal),
      machineHasCyc m = false → valHasCyc v = false →
      valFeedsRef pid v = false →
      machineHasCyc (resolveCall m pid v) = false) := by
  constructor
  · intro m pid p hg hs
    show getState (unpack m pid (.promiseRef pid)) pid = _
    rw [unpack_selfRef (getState_pending_of_getP hg hs), transition_state_set hg hs]
  · intro m pid v h hv hsf
    exact unpack_noCyc m pid v h hv hsf

/-- Witness for C3: self-resolving the only (pending) promise rejects it
with the fabricated cycle TypeError, and resolving it with a plain
number fabricates no cycle error anywhere. -/
theorem c3_witness :
    getState (resolveCall mPend1 0 (.promiseRef 0)) 0 =
      .rejected (.tyErr cycMsg) ∧
    machineHasCyc (resolveCall mPend1 0 (.prim 5)) = false :=
  ⟨c3_self_resolution_cycle.1 mPend1 0 ⟨.pending, [], []⟩ rfl rfl,
   c3_self_resolution_cycle.2 mPend1 0 (.prim 5) rfl (by simp [valHasCyc])
     (by simp [valFeedsRef])⟩

/-! Execution of single scheduled microtasks, used for the settled-source
`then` scenarios. -/

theorem step_single_passResolve {M : Machine} {lid pid out : Nat} {v : JSVal}
    (htasks : M.tasks = [⟨lid, .passResolve out, pid, true⟩])
    (hsrc : getState M pid = .fulfilled v) :
    stepTask M = unpack { M with tasks := [], log := M.log ++ [lid] } out v := by
  have hpay : taskPayload { M with tasks := [], log := M.log ++ [lid] }
      ⟨lid, .passResolve out, pid, true⟩ = v := by
    rw [taskPayload]
    have h2 : getState { M with tasks := [], log := M.log ++ [lid] } pid =
        .fulfilled v := hsrc
    rw [h2]
  simp only [stepTask]
  rw [htasks]
  simp only [runTask]
  rw [hpay]

theorem step_single_passReject {M : Machine} {lid pid out : Nat} {r : JSVal}
    (htasks : M.tasks = [⟨lid, .passReject out, pid, false⟩])
    (hsrc : getState M pid = .rejected r) :
    stepTask M =
      transition { M with tasks := [], log := M.log ++ [lid] } out (.rejected r) := by
  have hpay : taskPayload { M with tasks := [], log := M.log ++ [lid] }
      ⟨lid, .passReject out, pid, false⟩ = r := by
    rw [taskPayload]
    have h2 : getState { M with tasks := [], log := M.log ++ [lid] } pid =
        .rejected r := hsrc
    rw [h2]
  simp only [stepTask]
  rw [htasks]
  simp only [runTask]
  rw [hpay]

theorem step_single_runCb {M : Machine} {lid pid out : Nat} {v : JSVal} {cb : Cb}
    (htasks : M.tasks = [⟨lid, .runCb out cb, pid, true⟩])
    (hsrc : getState M pid = .fulfilled v) :
    stepTask M = run { M with tasks := [], log := M.log ++ [lid] } v out cb := by
  have hpay : taskPayload { M with tasks := [], log := M.log ++ [lid] }
      ⟨lid, .runCb out cb, pid, true⟩ = v := by
    rw [taskPayload]
    have h2 : getState { M with tasks := [], log := M.log ++ [lid] } pid =
        .fulfilled v := hsrc
    rw [h2]
  simp only [stepTask]
  rw [htasks]
  simp only [runTask]
  rw [hpay]

theorem unpack_plain_state {M : Machine} {out : Nat} {v : JSVal}
    (hg : getP M out = some ⟨.pending, [], []⟩) (hv : isPlainVal v = true) :
    getState (unpack M out v) out = .fulfilled v := by
  rw [unpack_plain (getState_pending_of_getP hg rfl) hv, transition_state_set hg rfl]

theorem transition_rejected_state {M : Machine} {out : Nat} {r : JSVal}
    (hg : getP M out = some ⟨.pending, [], []⟩) :
    getState (transition M out (.rejected r)) out = .rejected r :=
  transition_state_set hg rfl (.rejected r)

/-- C7.  On a settled source promise (whose queues are empty and with no
pending microtasks — the quiescent situation every settled promise is in),
calling `then` with both callbacks omitted or non-callable produces a
derived promise that, after the scheduled pass-through reaction runs,
carries the exact same payload with the same settlement kind: the
source's fulfillment value (a plain value, as every fulfillment payload
the machine produces is), or the source's rejection reason, unchanged. -/
theorem c7_passthrough :
    ∀ (m : Machine) (pid : Nat) (p : Promise),
      getP m pid = some p → p.fulfilledListeners = [] →
      p.rejectedListeners = [] → m.tasks = [] →
      (∀ v : JSVal, p.state = .fulfilled v → isPlainVal v = true →
        getState (drain 1 (thenOp m pid none none).1)
          (thenOp m pid none none).2 = .fulfilled v) ∧
      (∀ r : JSVal, p.state = .rejected r →
        getState (drain 1 (thenOp m pid none none).1)
          (thenOp m pid none none).2 = .rejected r) := by
  intro m pid p hg hf hr htk
  have hout : (thenOp m pid none none).2 = m.promises.length := by rw [thenOp_eq]
  constructor
  · intro v hs hv
    have htasks : ((thenOp m pid none none).1).tasks =
        [⟨m.nextLid, .passResolve m.promises.length, pid, true⟩] := by
      rw [thenOp_fulfilled_tasks hg hs none none, hf, htk]
      simp [mkTask, actOfF]
    have hgM : getP ((thenOp m pid none none).1) pid =
        some ⟨p.state, [], []⟩ :=
      thenOp_settled_getP_src hg (by rw [hs]; rfl) none none
    have hsrc : getState ((thenOp m pid none none).1) pid = .fulfilled v := by
      rw [getState, hgM]
      exact hs
    rw [hout,
      show drain 1 ((thenOp m pid none none).1) =
        stepTask ((thenOp m pid none none).1) from rfl,
      step_single_passResolve htasks hsrc]
    exact unpack_plain_state (thenOp_getP_out (getP_lt hg) none none) hv
  · intro r hs
    have htasks : ((thenOp m pid none none).1).tasks =
        [⟨m.nextLid + 1, .passReject m.promises.length, pid, false⟩] := by
      rw [thenOp_rejected_tasks hg hs none none, hr, htk]
      simp [mkTask, actOfR]
    have hgM : getP ((thenOp m pid none none).1) pid =
        some ⟨p.state, [], []⟩ :=
      thenOp_settled_getP_src hg (by rw [hs]; rfl) none none
    have hsrc : getState ((thenOp m pid none none).1) pid = .rejected r := by
      rw [getState, hgM]
      exact hs
    rw [hout,
      show drain 1 ((thenOp m pid none none).1) =
        stepTask ((thenOp m pid none none).1) from rfl,
      step_single_passReject htasks hsrc]
    refine transition_rejected_state ?_
    exact thenOp_getP_out (getP_lt hg) none none

/-- Witness for C7: `then()` on a promise fulfilled with 3 yields a
derived promise fulfilled with 3; on a promise rejected with 1, a derived
promise rejected with 1. -/
theorem c7_witness :
    getState (drain 1 (thenOp mFul1 0 none none).1) (thenOp mFul1 0 none none).2 =
      .fulfilled (.prim 3) ∧
    getState (drain 1 (thenOp mRej1 0 none none).1) (thenOp mRej1 0 none none).2 =
      .rejected (.prim 1) :=
  ⟨(c7_passthrough mFul1 0 ⟨.fulfilled (.prim 3), [], []⟩ rfl rfl rfl rfl).1
      (.prim 3) rfl rfl,
   (c7_passthrough mRej1 0 ⟨.rejected (.prim 1), [], []⟩ rfl rfl rfl rfl).2
      (.prim 1) rfl⟩

theorem run_unpackInto (M : Machine) (v : JSVal) (out p : Nat) :
    run M v out (.unpackInto p) = unpack (unpack M p v) out .undefv := rfl

theorem run_rejectInto (M : Machine) (r : JSVal) (out p : Nat) :
    run M r out (.rejectInto p) = unpack (transition M p (.rejected r)) out .undefv := rfl

theorem step_single_runCbR {M : Machine} {lid pid out : Nat} {r : JSVal} {cb : Cb}
    (htasks : M.tasks = [⟨lid, .runCb out cb, pid, false⟩])
    (hsrc : getState M pid = .rejected r) :
    stepTask M = run { M with tasks := [], log := M.log ++ [lid] } r out cb := by
  have hpay : taskPayload { M with tasks := [], log := M.log ++ [lid] }
      ⟨lid, .runCb out cb, pid, false⟩ = r := by
    rw [taskPayload]
    have h2 : getState { M with tasks := [], log := M.log ++ [lid] } pid =
        .rejected r := hsrc
    rw [h2]
  simp only [stepTask]
  rw [htasks]
  simp only [runTask]
  rw [hpay]

/-- C6.  Adoption.  `resolve(inner)` on a pending own promise `inner`
(with no listeners yet and a quiescent task queue) yields an outer
promise that, once `inner` settles and the single scheduled reaction
runs, carries `inner`'s outcome with the same kind: fulfilled stays
fulfilled (with the same plain value), rejected stays rejected (with the
same reason).  And `resolve` of the foreign thenable
`{ then(f){ f(7) } }` settles the new promise fulfilled with 7
synchronously during construction. -/
theorem c6_adoption :
    (∀ (m : Machine) (q : Nat),
      getP m q = some ⟨.pending, [], []⟩ → m.tasks = [] →
      (∀ v : JSVal, isPlainVal v = true →
        getState
          (drain 1 (resolveCall (staticResolve m (.promiseRef q)).1 q v))
          (staticResolve m (.promiseRef q)).2 = .fulfilled v) ∧
      (∀ r : JSVal,
        getState
          (drain 1 (rejectCall (staticResolve m (.promiseRef q)).1 q r))
          (staticResolve m (.promiseRef q)).2 = .rejected r)) ∧
    (∀ m : Machine,
      getState (staticResolve m (.thenable false [(.sres, .prim 7)])).1
        (staticResolve m (.thenable false [(.sres, .prim 7)])).2 =
        .fulfilled (.prim 7)) := by
  constructor
  · intro m q hg htk
    have hqlt : q < m.promises.length := getP_lt hg
    have hgN : getP (newPromise m).1 q = some ⟨.pending, [], []⟩ := by
      rw [newPromise_getP_lt hqlt]; exact hg
    have hpendN :
        (getState (newPromise m).1 m.promises.length).isPending = true := by
      rw [getState, newPromise_getP_self]; rfl
    have hM1 : (staticResolve m (.promiseRef q)).1 =
        (thenOp (newPromise m).1 q (some (.unpackInto m.promises.length))
          (some (.rejectInto m.promises.length))).1 := by
      show unpack (newPromise m).1 m.promises.length (.promiseRef q) = _
      exact unpack_ref hpendN (by omega)
    have hg1 := thenOp_pending_getP_src hgN rfl
      (some (Cb.unpackInto m.promises.length))
      (some (Cb.rejectInto m.promises.length))
    have hpend1 : (getState ((thenOp (newPromise m).1 q
        (some (.unpackInto m.promises.length))
        (some (.rejectInto m.promises.length))).1) q).isPending = true := by
      rw [getState, hg1]; rfl
    have htkT : ((thenOp (newPromise m).1 q
        (some (.unpackInto m.promises.length))
        (some (.rejectInto m.promises.length))).1).tasks = [] := by
      rw [thenOp_pending_tasks hgN rfl]
      exact htk
    have houtlt : m.promises.length < (newPromise m).1.promises.length := by
      rw [newPromise_length]; omega
    have hgout : getP ((thenOp (newPromise m).1 q
        (some (.unpackInto m.promises.length))
        (some (.rejectInto m.promises.length))).1) m.promises.length =
        some ⟨.pending, [], []⟩ := by
      rw [thenOp_getP_ne _ _ (by omega) houtlt, newPromise_getP_self]
    constructor
    · intro v hv
      rw [hM1]
      rw [show resolveCall ((thenOp (newPromise m).1 q
          (some (.unpackInto m.promises.length))
          (some (.rejectInto m.promises.length))).1) q v =
        unpack ((thenOp (newPromise m).1 q
          (some (.unpackInto m.promises.length))
          (some (.rejectInto m.promises.length))).1) q v from rfl]
      rw [unpack_plain hpend1 hv]
      have htasks2 : (transition ((thenOp (newPromise m).1 q
          (some (.unpackInto m.promises.length))
          (some (.rejectInto m.promises.length))).1) q (.fulfilled v)).tasks =
          [⟨m.nextLid,
            .runCb ((newPromise m).1.promises.length)
              (.unpackInto m.promises.length), q, true⟩] := by
        rw [transition_fulfilled_shape hg1 rfl v]
        show ((thenOp (newPromise m).1 q
          (some (.unpackInto m.promises.length))
          (some (.rejectInto m.promises.length))).1).tasks ++ _ = _
        rw [htkT]
        simp [mkTask, actOfF]
        rfl
      have hsrc2 : getState (transition ((thenOp (newPromise m).1 q
          (some (.unpackInto m.promises.length))
          (some (.rejectInto m.promises.length))).1) q (.fulfilled v)) q =
          .fulfilled v :=
        transition_state_set hg1 rfl _
      rw [show drain 1 (transition ((thenOp (newPromise m).1 q
          (some (.unpackInto m.promises.length))
          (some (.rejectInto m.promises.length))).1) q (.fulfilled v)) =
        stepTask (transition ((thenOp (newPromise m).1 q
          (some (.unpackInto m.promises.length))
          (some (.rejectInto m.promises.length))).1) q (.fulfilled v)) from rfl]
      rw [step_single_runCb htasks2 hsrc2, run_unpackInto]
      have hgoutM2 : getP (transition ((thenOp (newPromise m).1 q
          (some (.unpackInto m.promises.length))
          (some (.rejectInto m.promises.length))).1) q (.fulfilled v))
          m.promises.length = some ⟨.pending, [], []⟩ := by
        rw [transition_getP_ne (show m.promises.length ≠ q by omega) (.fulfilled v)]
        exact hgout
      have hmain : ∀ M : Machine,
          getP M m.promises.length = some ⟨.pending, [], []⟩ →
          getState (unpack (unpack M m.promises.length v)
            ((newPromise m).1.promises.length) .undefv) m.promises.length =
            .fulfilled v := by
        intro M hgM
        rw [(unpack_side (unpack M m.promises.length v)
          ((newPromise m).1.promises.length) .undefv).2.2 m.promises.length
          (by have := newPromise_length m; omega)]
        exact unpack_plain_state hgM hv
      exact hmain _ hgoutM2
    · intro r
      rw [hM1]
      rw [show rejectCall ((thenOp (newPromise m).1 q
          (some (.unpackInto m.promises.length))
          (some (.rejectInto m.promises.length))).1) q r =
        transition ((thenOp (newPromise m).1 q
          (some (.unpackInto m.promises.length))
          (some (.rejectInto m.promises.length))).1) q (.rejected r) from rfl]
      have htasks2 : (transition ((thenOp (newPromise m).1 q
          (some (.unpackInto m.promises.length))
          (some (.rejectInto m.promises.length))).1) q (.rejected r)).tasks =
          [⟨m.nextLid + 1,
            .runCb ((newPromise m).1.promises.length)
              (.rejectInto m.promises.length), q, false⟩] := by
        rw [transition_rejected_shape hg1 rfl r]
        show ((thenOp (newPromise m).1 q
          (some (.unpackInto m.promises.length))
          (some (.rejectInto m.promises.length))).1).tasks ++ _ = _
        rw [htkT]
        simp [mkTask, actOfR]
        rfl
      have hsrc2 : getState (transition ((thenOp (newPromise m).1 q
          (some (.unpackInto m.promises.length))
          (some (.rejectInto m.promises.length))).1) q (.rejected r)) q =
          .rejected r :=
        transition_state_set hg1 rfl _
      rw [show drain 1 (transition ((thenOp (newPromise m).1 q
          (some (.unpackInto m.promises.length))
          (some (.rejectInto m.promises.length))).1) q (.rejected r)) =
        stepTask (transition ((thenOp (newPromise m).1 q
          (some (.unpackInto m.promises.length))
          (some (.rejectInto m.promises.length))).1) q (.rejected r)) from rfl]
      rw [step_single_runCbR htasks2 hsrc2, run_rejectInto]
      have hgoutM2 : getP (transition ((thenOp (newPromise m).1 q
          (some (.unpackInto m.promises.length))
          (some (.rejectInto m.promises.length))).1) q (.rejected r))
          m.promises.length = some ⟨.pending, [], []⟩ := by
        rw [transition_getP_ne (show m.promises.length ≠ q by omega) (.rejected r)]
        exact hgout
      have hmain : ∀ M : Machine,
          getP M m.promises.length = some ⟨.pending, [], []⟩ →
          getState (unpack (transition M m.promises.length (.rejected r))
            ((newPromise m).1.promises.length) .undefv) m.promises.length =
            .rejected r := by
        intro M hgM
        rw [(unpack_side (transition M m.promises.length (.rejected r))
          ((newPromise m).1.promises.length) .undefv).2.2 m.promises.length
          (by have := newPromise_length m; omega)]
        exact transition_rejected_state hgM
      exact hmain _ hgoutM2
  · intro m
    show getState
      (unpack (newPromise m).1 m.promises.length
        (.thenable false [(.sres, .prim 7)])) m.promises.length = _
    have hg : getP (newPromise m).1 m.promises.length = some ⟨.pending, [], []⟩ :=
      newPromise_getP_self m
    have hpend :
        (getState (newPromise m).1 m.promises.length).isPending = true := by
      rw [getState, hg]; rfl
    rw [unpack_thenable _ _ hpend, runScript_first_res]
    exact unpack_plain_state hg rfl

/-! The ghost log records exactly one entry per executed microtask, and
microtask execution only appends to the task queue. -/

theorem tasks_ext_trans {a b c : Machine} (h1 : ∃ s, b.tasks = a.tasks ++ s)
    (h2 : ∃ s, c.tasks = b.tasks ++ s) : ∃ s, c.tasks = a.tasks ++ s := by
  obtain ⟨s1, e1⟩ := h1
  obtain ⟨s2, e2⟩ := h2
  exact ⟨s1 ++ s2, by rw [e2, e1, List.append_assoc]⟩

theorem run_log (m : Machine) (value : JSVal) (outId : Nat) (cb : Cb) :
    (run m value outId cb).log = m.log := by
  cases cb with
  | user f =>
    rw [run]
    cases evalUser f value with
    | error reason => rw [transition_log]
    | ok resolvable => exact (unpack_side m outId resolvable).1
  | unpackInto p =>
    rw [run_unpackInto]
    rw [(unpack_side (unpack m p value) outId .undefv).1]
    exact (unpack_side m p value).1
  | rejectInto p =>
    rw [run_rejectInto]
    rw [(unpack_side (transition m p (.rejected value)) outId .undefv).1]
    exact transition_log m p _

theorem run_tasks_ext (m : Machine) (value : JSVal) (outId : Nat) (cb : Cb) :
    ∃ s, (run m value outId cb).tasks = m.tasks ++ s := by
  cases cb with
  | user f =>
    rw [run]
    cases evalUser f value with
    | error reason => exact transition_tasks_ext m outId _
    | ok resolvable => exact (unpack_side m outId resolvable).2.1
  | unpackInto p =>
    rw [run_unpackInto]
    exact tasks_ext_trans (unpack_side m p value).2.1
      (unpack_side (unpack m p value) outId .undefv).2.1
  | rejectInto p =>
    rw [run_rejectInto]
    exact tasks_ext_trans (transition_tasks_ext m p _)
      (unpack_side (transition m p (.rejected value)) outId .undefv).2.1

theorem runTask_log (m : Machine) (t : Task) : (runTask m t).log = m.log := by
  cases ha : t.act with
  | runCb out cb => rw [runTask, ha]; exact run_log m _ out cb
  | passResolve out => rw [runTask, ha]; exact (unpack_side m out _).1
  | passReject out => rw [runTask, ha]; exact transition_log m out _

theorem runTask_tasks_ext (m : Machine) (t : Task) :
    ∃ s, (runTask m t).tasks = m.tasks ++ s := by
  cases ha : t.act with
  | runCb out cb => rw [runTask, ha]; exact run_tasks_ext m _ out cb
  | passResolve out => rw [runTask, ha]; exact (unpack_side m out _).2.1
  | passReject out => rw [runTask, ha]; exact transition_tasks_ext m out _

/-- Draining `k` of the currently scheduled microtasks appends exactly
their listener ids to the invocation log, in queue (= scheduling =
attachment) order: each scheduled reaction is invoked exactly once, and
reactions spawned while draining go to the back of the queue. -/
theorem drain_log_take :
    ∀ (k : Nat) (m : Machine), k ≤ m.tasks.length →
      (drain k m).log = m.log ++ (m.tasks.take k).map Task.lid := by
  intro k
  induction k with
  | zero => intro m h; simp [drain]
  | succ n ih =>
    intro m h
    cases htk : m.tasks with
    | nil => rw [htk] at h; simp at h
    | cons t rest =>
      show (drain n (stepTask m)).log = _
      have hst : stepTask m =
          runTask { m with tasks := rest, log := m.log ++ [t.lid] } t := by
        simp only [stepTask]
        rw [htk]
      rw [hst]
      have hlen : n ≤ rest.length := by
        rw [htk] at h
        simpa using h
      obtain ⟨s, hs⟩ :=
        runTask_tasks_ext { m with tasks := rest, log := m.log ++ [t.lid] } t
      have hlog := runTask_log { m with tasks := rest, log := m.log ++ [t.lid] } t
      have hlen2 : n ≤
          (runTask { m with tasks := rest, log := m.log ++ [t.lid] } t).tasks.length := by
        rw [hs]
        simp only [List.length_append]
        show n ≤ rest.length + s.length
        omega
      rw [ih _ hlen2, hlog, hs]
      show (m.log ++ [t.lid]) ++ ((rest ++ s).take n).map Task.lid = _
      rw [List.take_append_of_le_length hlen]
      simp [List.take_succ_cons]

/-- C2 counterexample.  Build a promise fulfilled with 0 and attach, via
`then`, one fulfillment reaction and one rejection reaction (callable
callbacks; they receive ghost ids 0 and 1, so the counter ends at 2).
After draining every scheduled microtask (the queue is empty at the end),
the invocation log is `[0]`: the fulfillment reaction ran exactly once,
but the rejection-sequence entry (id 1) — an entry that was appended to a
reaction sequence — was cleared without ever being invoked, contradicting
"every entry ever appended ... is eventually invoked exactly once — never
zero times". -/
theorem c2_counterexample :
    (drain 2 (thenOp (construct mEmpty ⟨[.eres (.prim 0)], none⟩).1 0
        (some (.user .idFn)) (some (.user .idFn))).1).tasks = [] ∧
    (drain 2 (thenOp (construct mEmpty ⟨[.eres (.prim 0)], none⟩).1 0
        (some (.user .idFn)) (some (.user .idFn))).1).log = [0] ∧
    (drain 2 (thenOp (construct mEmpty ⟨[.eres (.prim 0)], none⟩).1 0
        (some (.user .idFn)) (some (.user .idFn))).1).nextLid = 2 := by
  have hC : (construct mEmpty ⟨[.eres (.prim 0)], none⟩).1 =
      ⟨[⟨.fulfilled (.prim 0), [], []⟩], [], 0, []⟩ := by
    show unpack (newPromise mEmpty).1 0 (.prim 0) = _
    have hp0 : (getState (newPromise mEmpty).1 0).isPending = true := rfl
    have hv0 : isPlainVal (JSVal.prim 0) = true := rfl
    rw [unpack_plain hp0 hv0]
    rfl
  have hT : (thenOp (construct mEmpty ⟨[.eres (.prim 0)], none⟩).1 0
      (some (.user .idFn)) (some (.user .idFn))).1 =
      ⟨[⟨.fulfilled (.prim 0), [], []⟩, ⟨.pending, [], []⟩],
        [⟨0, .runCb 1 (.user .idFn), 0, true⟩], 2, []⟩ := by
    rw [hC]
    rfl
  have hfull : drain 2 (thenOp (construct mEmpty ⟨[.eres (.prim 0)], none⟩).1 0
      (some (.user .idFn)) (some (.user .idFn))).1 =
      ⟨[⟨.fulfilled (.prim 0), [], []⟩, ⟨.fulfilled (.prim 0), [], []⟩],
        [], 2, [0]⟩ := by
    rw [hT]
    show drain 1 (stepTask ⟨[⟨.fulfilled (.prim 0), [], []⟩, ⟨.pending, [], []⟩],
      [⟨0, .runCb 1 (.user .idFn), 0, true⟩], 2, []⟩) = _
    rw [show stepTask ⟨[⟨.fulfilled (.prim 0), [], []⟩, ⟨.pending, [], []⟩],
        [⟨0, .runCb 1 (.user .idFn), 0, true⟩], 2, []⟩ =
      unpack ⟨[⟨.fulfilled (.prim 0), [], []⟩, ⟨.pending, [], []⟩], [], 2, [0]⟩
        1 (.prim 0) from rfl]
    have hp1 : (getState
      (⟨[⟨.fulfilled (.prim 0), [], []⟩, ⟨.pending, [], []⟩], [], 2, [0]⟩ : Machine)
      1).isPending = true := rfl
    have hv0 : isPlainVal (JSVal.prim 0) = true := rfl
    rw [unpack_plain hp1 hv0]
    rfl
  exact ⟨by rw [hfull], by rw [hfull], by rw [hfull]⟩

/-- C2 (amended).  Reactions of the kind matching the settlement are each
invoked exactly once, asynchronously, in attachment order; reactions of
the other kind are cleared without being invoked (see the counterexample).
Precisely: (i) attaching reactions via `then` invokes nothing (the ghost
invocation log is unchanged); (ii) the settle functions invoke nothing
synchronously either — settlement only schedules; (iii) settling a
pending promise by rejection schedules exactly its queued rejection
reactions behind the already-queued microtasks, and draining those
microtasks appends exactly those reactions' ids to the log, each once,
in attachment order — and (iv) symmetrically for fulfillment with a
plain value; (v) a reaction attached by `then` after settlement is
scheduled immediately at registration (it enters the task queue, not the
cleared reaction sequence, and by (i) is not run inline). -/
theorem c2_reactions_scheduling :
    (∀ (m : Machine) (src : Nat) (f r : Option Cb),
      ((thenOp m src f r).1).log = m.log) ∧
    (∀ (m : Machine) (pid : Nat) (v : JSVal),
      (resolveCall m pid v).log = m.log) ∧
    (∀ (m : Machine) (pid : Nat) (r : JSVal),
      (rejectCall m pid r).log = m.log) ∧
    (∀ (m : Machine) (pid : Nat) (p : Promise) (r : JSVal),
      getP m pid = some p → p.state = .pending →
      (rejectCall m pid r).tasks =
        m.tasks ++ p.rejectedListeners.map (mkTask pid false) ∧
      (drain (m.tasks.length + p.rejectedListeners.length)
          (rejectCall m pid r)).log =
        m.log ++ m.tasks.map Task.lid ++
          p.rejectedListeners.map Listener.lid) ∧
    (∀ (m : Machine) (pid : Nat) (p : Promise) (v : JSVal),
      getP m pid = some p → p.state = .pending → isPlainVal v = true →
      (resolveCall m pid v).tasks =
        m.tasks ++ p.fulfilledListeners.map (mkTask pid true) ∧
      (drain (m.tasks.length + p.fulfilledListeners.length)
          (resolveCall m pid v)).log =
        m.log ++ m.tasks.map Task.lid ++
          p.fulfilledListeners.map Listener.lid) ∧
    (∀ (m : Machine) (pid : Nat) (p : Promise) (r0 : JSVal) (f : Option Cb)
        (cb : Cb),
      getP m pid = some p → p.state = .rejected r0 →
      p.rejectedListeners = [] →
      ((thenOp m pid f (some cb)).1).tasks =
        m.tasks ++ [⟨m.nextLid + 1, .runCb m.promises.length cb, pid, false⟩]) := by
  refine ⟨fun m src f r => thenOp_log m src f r,
    fun m pid v => (unpack_side m pid v).1,
    fun m pid r => transition_log m pid _, ?_, ?_, ?_⟩
  · intro m pid p r hg hs
    have htl : (rejectCall m pid r).tasks =
        m.tasks ++ p.rejectedListeners.map (mkTask pid false) := by
      show (transition m pid (.rejected r)).tasks = _
      rw [transition_rejected_shape hg hs r]
    refine ⟨htl, ?_⟩
    have hcnt : m.tasks.length + p.rejectedListeners.length =
        (rejectCall m pid r).tasks.length := by
      rw [htl]
      simp
    have hlg : (rejectCall m pid r).log = m.log := transition_log m pid _
    rw [hcnt, drain_log_take _ _ (le_refl _), List.take_length, htl, hlg]
    simp [mkTask, Function.comp]
  · intro m pid p v hg hs hv
    have hres : resolveCall m pid v = transition m pid (.fulfilled v) := by
      show unpack m pid v = _
      exact unpack_plain (getState_pending_of_getP hg hs) hv
    have htl : (resolveCall m pid v).tasks =
        m.tasks ++ p.fulfilledListeners.map (mkTask pid true) := by
      rw [hres, transition_fulfilled_shape hg hs v]
    refine ⟨htl, ?_⟩
    have hcnt : m.tasks.length + p.fulfilledListeners.length =
        (resolveCall m pid v).tasks.length := by
      rw [htl]
      simp
    rw [hcnt, drain_log_take _ _ (le_refl _), List.take_length, htl, hres,
      transition_log]
    simp [mkTask, Function.comp]
  · intro m pid p r0 f cb hg hs hr
    rw [thenOp_rejected_tasks hg hs f (some cb), hr]
    simp [mkTask, actOfR]

/-- Witness for C2: a pending promise with one queued rejection reaction
(ghost id 5); rejecting it schedules exactly that reaction, and draining
one microtask logs exactly `[5]`. -/
theorem c2_witness :
    (rejectCall ⟨[⟨.pending, [], [⟨5, .passReject 9⟩]⟩], [], 6, []⟩ 0
        (.prim 7)).tasks = [⟨5, .passReject 9, 0, false⟩] ∧
    (drain 1 (rejectCall ⟨[⟨.pending, [], [⟨5, .passReject 9⟩]⟩], [], 6, []⟩ 0
        (.prim 7))).log = [5] := by
  have h := c2_reactions_scheduling.2.2.2.1
    ⟨[⟨.pending, [], [⟨5, .passReject 9⟩]⟩], [], 6, []⟩ 0
    ⟨.pending, [], [⟨5, .passReject 9⟩]⟩ (.prim 7) rfl rfl
  exact ⟨h.1, h.2⟩

/-- Witness for C6: adopting the pending promise 0 of a one-promise
machine and then settling it — fulfilled with 5 or rejected with 6 — the
outer promise ends in the same state after one microtask. -/
theorem c6_witness :
    getState
      (drain 1 (resolveCall (staticResolve mPend1 (.promiseRef 0)).1 0 (.prim 5)))
      (staticResolve mPend1 (.promiseRef 0)).2 = .fulfilled (.prim 5) ∧
    getState
      (drain 1 (rejectCall (staticResolve mPend1 (.promiseRef 0)).1 0 (.prim 6)))
      (staticResolve mPend1 (.promiseRef 0)).2 = .rejected (.prim 6) :=
  ⟨(c6_adoption.1 mPend1 0 rfl rfl).1 (.prim 5) rfl,
   (c6_adoption.1 mPend1 0 rfl rfl).2 (.prim 6)⟩

end PinkyProof
